import Mathlib

/-!
Shallow embedding of `src/parallel_for_each.rs` (crate `minipath`).

The engine `parallel_for_each` spawns `worker_count` worker threads over a
mutex-guarded shared cursor (`State { iterator, threads_running }`), runs a
background (supervisor) function on the calling thread, and joins all workers.
Every shared-state access in the source is serialized by one mutex, and the
user-supplied init / work / callback functions run with the lock released, so
a run of the engine is faithfully modelled as an interleaving of atomic
events: one event is one lock-protected phase of one worker (or the single
background step).  A run is driven by an explicit schedule (list of events),
and theorems quantify over all schedules.

The embedding also models the join/aggregation phase of the source
(`background_result?`, the `handle.join()` loop, `resume_unwind`, and the
final `scope(..).unwrap()`), including the behaviour of
`crossbeam_utils::thread::scope`: threads not joined by the explicit loop are
auto-joined, their panics are aggregated into the scope's `Err`, and
`.unwrap()` on that `Err` raises a fresh panic whose payload is not the
original one.  Panic payloads are therefore modelled by `Payload`, with
`Payload.user p` an original payload and `Payload.unwrapAggregate` the fresh
payload produced by `.unwrap()`.
-/

set_option autoImplicit false
set_option linter.dupNamespace false
set_option linter.unusedVariables false

namespace ParallelForEach

/-- `Continue` from the source: the supervisor's signal. -/
inductive Continue where
  | Continue
  | Stop
deriving DecidableEq

/-- `WorkerCount` from the source: `Auto` resolves to `num_cpus::get()`,
`Manual(n)` to `n` (`n` is a `NonZeroUsize` in the source). -/
inductive WorkerCount where
  | Auto
  | Manual (n : Nat)
deriving DecidableEq

/-- Resolution of the worker-count policy, with the host cpu count passed
explicitly (`num_cpus::get()` in the source). -/
def resolveWorkerCount : WorkerCount → Nat → Nat
  | WorkerCount.Auto, cpus => cpus
  | WorkerCount.Manual n, _ => n

/-- Result of one user-supplied call (init or work): it returns a value,
returns an error, or panics with a payload. -/
inductive TaskRes (σ ε π : Type) where
  | ok (value : σ)
  | err (source : ε)
  | panic (payload : π)
deriving DecidableEq

/-- Result of the background (supervisor) function. -/
inductive BgRes (ε π : Type) where
  | ok (c : Continue)
  | err (source : ε)
  | panic (payload : π)
deriving DecidableEq

/-- Whether the background function panicked. -/
def BgRes.isPanicB {ε π : Type} : BgRes ε π → Bool
  | BgRes.panic _ => true
  | _ => false

/-- `ParallelForEachError` from the source. -/
inductive PFEError (εi εw εb : Type) where
  | initTaskError (source : εi)
  | workerTaskError (source : εw)
  | backgroundTaskError (source : εb)
deriving DecidableEq

/-- A panic payload as observed by the caller of `parallel_for_each`:
either an original user payload (re-raised via `resume_unwind`), or the
fresh payload of the `panic!` raised by `.unwrap()` on a
`crossbeam_utils::thread::scope` result that aggregated panics of
auto-joined threads. -/
inductive Payload (π : Type) where
  | user (p : π)
  | unwrapAggregate
deriving DecidableEq

/-- What the call `parallel_for_each(..)` does on return: returns `Ok(())`,
returns an error, or unwinds with a panic payload. -/
inductive EngineResult (εi εw εb π : Type) where
  | ok
  | err (e : PFEError εi εw εb)
  | panic (p : Payload π)
deriving DecidableEq

/-- How one worker thread ended: its closure returned `Ok(())`, returned an
error (from init or from work), or panicked. -/
inductive TaskOutcome (εi εw π : Type) where
  | ok
  | errInit (source : εi)
  | errWork (source : εw)
  | panicked (payload : π)
deriving DecidableEq

/-- Whether a worker thread panicked. -/
def TaskOutcome.isPanic {εi εw π : Type} : TaskOutcome εi εw π → Bool
  | TaskOutcome.panicked _ => true
  | _ => false

/-- Control state of one worker thread: about to run `init_fun`, about to
pull from the shared cursor (holding local state `s`), running `worker_fun`
on a pulled item, or terminated with an outcome. -/
inductive WStatus (σ α εi εw π : Type) where
  | toInit
  | pulling (s : σ)
  | working (s : σ) (a : α)
  | terminated (o : TaskOutcome εi εw π)
deriving DecidableEq

/-- Whether a worker thread has terminated. -/
def WStatus.isTerm {σ α εi εw π : Type} : WStatus σ α εi εw π → Bool
  | WStatus.terminated _ => true
  | _ => false

/-- The outcome of a terminated worker. -/
def WStatus.outcome? {σ α εi εw π : Type} : WStatus σ α εi εw π → Option (TaskOutcome εi εw π)
  | WStatus.terminated o => some o
  | _ => none

/-- The caller-supplied program: the iterator (as a state `ι` with a step
function), `init_fun`, `worker_fun`, the destructor of the per-worker local
state (run on every exit path of a worker that owns one), and
`finished_callback` (modelled as an update of the user-shared state `sh`). -/
structure Prog (ι α σ sh εi εw π : Type) where
  iterNext : ι → Option α × ι
  initf : Nat → TaskRes σ εi π
  workf : σ → α → sh → TaskRes (σ × sh) εw π
  dropf : σ → sh → sh
  callback : sh → sh

/-- Global state of one engine invocation.  `cursor` and `threadsRunning`
embed the source's mutex-guarded `State { iterator, threads_running }`;
`shared` is the user-shared state touched by work/drop/callback;
`workers` holds the control state of each worker thread.
`callbackCount`, `initLog`, `pullLog`, `deliveredLog` and `pollCount` are
ghost instrumentation: how many times `finished_callback` ran, which worker
ids ran `init_fun` (in order), which worker ids performed a `next()` call,
which items `next()` handed out, and how many times the underlying iterator
was polled. -/
structure Config (ι α σ sh εi εw π : Type) where
  cursor : Option ι
  threadsRunning : Nat
  shared : sh
  workers : List (WStatus σ α εi εw π)
  callbackCount : Nat
  initLog : List Nat
  pullLog : List Nat
  deliveredLog : List α
  pollCount : Nat
  bgDone : Bool
deriving DecidableEq

/-- `State::stop` from the source: clears the remaining iterator. -/
def stateStop {ι : Type} (_ : Option ι) : Option ι := none

/-- `State::next` from the source: if an iterator is present, poll it; if the
poll yields nothing, clear the iterator (stop) before returning.  Returns the
pulled item together with the new cursor contents. -/
def stateNext {ι α : Type} (inext : ι → Option α × ι) : Option ι → Option α × Option ι
  | none => (none, none)
  | some it =>
    match inext it with
    | (none, _) => (none, none)
    | (some a, it') => (some a, some it')

/-- The scopeguard attached at worker entry: stop the cursor, decrement
`threads_running`, and when it reaches zero run `finished_callback` (with the
lock released).  `ls` is the worker's local state if it owns one: its
destructor (`dropf`) runs before the guard, matching the drop order in the
source. -/
def cleanupWith {ι α σ sh εi εw π : Type} (P : Prog ι α σ sh εi εw π)
    (c : Config ι α σ sh εi εw π) (i : Nat) (ls : Option σ)
    (o : TaskOutcome εi εw π) : Config ι α σ sh εi εw π :=
  let sh1 := match ls with
    | some s => P.dropf s c.shared
    | none => c.shared
  let tr := c.threadsRunning - 1
  { c with
    cursor := none,
    threadsRunning := tr,
    shared := if tr = 0 then P.callback sh1 else sh1,
    callbackCount := if tr = 0 then c.callbackCount + 1 else c.callbackCount,
    workers := c.workers.set i (WStatus.terminated o) }

/-- One atomic phase of worker `i`: run `init_fun`; or perform one `next()`
call (terminating on `None`); or run `worker_fun` on the pulled item.  All
failure paths run the scopeguard cleanup, exactly as in the source. -/
def workerStep {ι α σ sh εi εw π : Type} (P : Prog ι α σ sh εi εw π)
    (c : Config ι α σ sh εi εw π) (i : Nat) : Config ι α σ sh εi εw π :=
  match c.workers[i]? with
  | none => c
  | some WStatus.toInit =>
    match P.initf i with
    | TaskRes.ok s =>
        { c with initLog := c.initLog ++ [i],
                 workers := c.workers.set i (WStatus.pulling s) }
    | TaskRes.err e =>
        cleanupWith P { c with initLog := c.initLog ++ [i] } i none (TaskOutcome.errInit e)
    | TaskRes.panic p =>
        cleanupWith P { c with initLog := c.initLog ++ [i] } i none (TaskOutcome.panicked p)
  | some (WStatus.pulling s) =>
    match stateNext P.iterNext c.cursor with
    | (none, cur') =>
        cleanupWith P
          { c with cursor := cur',
                   pullLog := c.pullLog ++ [i],
                   pollCount := c.pollCount + (if c.cursor.isSome then 1 else 0) }
          i (some s) TaskOutcome.ok
    | (some a, cur') =>
        { c with cursor := cur',
                 pullLog := c.pullLog ++ [i],
                 pollCount := c.pollCount + 1,
                 deliveredLog := c.deliveredLog ++ [a],
                 workers := c.workers.set i (WStatus.working s a) }
  | some (WStatus.working s a) =>
    match P.workf s a c.shared with
    | TaskRes.ok (s', sh') =>
        { c with shared := sh', workers := c.workers.set i (WStatus.pulling s') }
    | TaskRes.err e => cleanupWith P c i (some s) (TaskOutcome.errWork e)
    | TaskRes.panic p => cleanupWith P c i (some s) (TaskOutcome.panicked p)
  | some (WStatus.terminated _) => c

/-- The background function's single checkpoint on the calling thread: on
`Ok(Continue)` nothing happens to the cursor; on `Ok(Stop)`, `Err` or a panic
the cursor is stopped (the source does this in the `match background_result`
arm and, for panics, in the `defer_on_unwind!` guard). -/
def bgStep {ι α σ sh εi εw εb π : Type} (bg : BgRes εb π)
    (c : Config ι α σ sh εi εw π) : Config ι α σ sh εi εw π :=
  if c.bgDone then c
  else
    match bg with
    | BgRes.ok Continue.Continue => { c with bgDone := true }
    | _ => { c with bgDone := true, cursor := none }

/-- A scheduling event: one phase of worker `i`, or the background step. -/
inductive Event where
  | worker (i : Nat)
  | bg
deriving DecidableEq

/-- One step of the whole engine under a given background result. -/
def step {ι α σ sh εi εw εb π : Type} (P : Prog ι α σ sh εi εw π)
    (bg : BgRes εb π) (c : Config ι α σ sh εi εw π) : Event → Config ι α σ sh εi εw π
  | Event.worker i => workerStep P c i
  | Event.bg => bgStep bg c

/-- Run a schedule of events. -/
def run {ι α σ sh εi εw εb π : Type} (P : Prog ι α σ sh εi εw π)
    (bg : BgRes εb π) (c : Config ι α σ sh εi εw π) (evs : List Event) :
    Config ι α σ sh εi εw π :=
  evs.foldl (step P bg) c

/-- The state right after `parallel_for_each` created the shared cursor and
spawned `n` workers: full iterator, `threads_running = n`, all workers about
to run `init_fun`. -/
def initConfig {ι α σ sh εi εw π : Type} (i0 : ι) (sh0 : sh) (n : Nat) :
    Config ι α σ sh εi εw π :=
  { cursor := some i0,
    threadsRunning := n,
    shared := sh0,
    workers := List.replicate n WStatus.toInit,
    callbackCount := 0,
    initLog := [],
    pullLog := [],
    deliveredLog := [],
    pollCount := 0,
    bgDone := false }

/-- A full run of the engine from the spawn point under a schedule. -/
def pfe {ι α σ sh εi εw εb π : Type} (P : Prog ι α σ sh εi εw π)
    (bg : BgRes εb π) (i0 : ι) (sh0 : sh) (n : Nat) (sched : List Event) :
    Config ι α σ sh εi εw π :=
  run P bg (initConfig i0 sh0 n) sched

/-- The run is over: the background step has run and every worker thread has
terminated (the unconditional join barrier of the source). -/
def Config.finished {ι α σ sh εi εw π : Type} (c : Config ι α σ sh εi εw π) : Bool :=
  c.bgDone && c.workers.all WStatus.isTerm

/-- The outcomes of the terminated workers, in spawn order. -/
def outcomes {ι α σ sh εi εw π : Type} (c : Config ι α σ sh εi εw π) :
    List (TaskOutcome εi εw π) :=
  c.workers.filterMap WStatus.outcome?

/-- The explicit `handle.join()` loop of the source, joining worker handles
in spawn order: `Ok(Ok(()))` continues, `Ok(Err(e))` returns `Err(e)` early
(the remaining handles are auto-joined by the scope, and a panic among them
makes the final `.unwrap()` raise a fresh panic), `Err(p)` resumes the panic
with its original payload. -/
def joinWorkers {εi εw εb π : Type} : List (TaskOutcome εi εw π) → EngineResult εi εw εb π
  | [] => EngineResult.ok
  | TaskOutcome.ok :: rest => joinWorkers rest
  | TaskOutcome.errInit e :: rest =>
      if rest.any TaskOutcome.isPanic then EngineResult.panic Payload.unwrapAggregate
      else EngineResult.err (PFEError.initTaskError e)
  | TaskOutcome.errWork e :: rest =>
      if rest.any TaskOutcome.isPanic then EngineResult.panic Payload.unwrapAggregate
      else EngineResult.err (PFEError.workerTaskError e)
  | TaskOutcome.panicked p :: _ => EngineResult.panic (Payload.user p)

/-- The complete result-aggregation phase of the source (lines 150-175):
a background panic is resumed with its own payload after the scope joined
everything; a background error returns `BackgroundTaskError` before the join
loop runs, so a panicked worker only surfaces through `.unwrap()` with a
fresh payload; otherwise the explicit join loop decides. -/
def finalResult {εi εw εb π : Type} (bg : BgRes εb π)
    (ws : List (TaskOutcome εi εw π)) : EngineResult εi εw εb π :=
  match bg with
  | BgRes.panic p => EngineResult.panic (Payload.user p)
  | BgRes.err e =>
      if ws.any TaskOutcome.isPanic then EngineResult.panic Payload.unwrapAggregate
      else EngineResult.err (PFEError.backgroundTaskError e)
  | BgRes.ok _ => joinWorkers ws

/-- The value `parallel_for_each` produces for a completed run. -/
def pfeResult {ι α σ sh εi εw εb π : Type} (P : Prog ι α σ sh εi εw π)
    (bg : BgRes εb π) (i0 : ι) (sh0 : sh) (n : Nat) (sched : List Event) :
    EngineResult εi εw εb π :=
  finalResult bg (outcomes (pfe P bg i0 sh0 n sched))

/-- The first worker failure in spawn order, skipping panicked workers,
wrapped the way the join loop wraps it. -/
def firstWorkerFailure {εi εw εb π : Type} :
    List (TaskOutcome εi εw π) → Option (PFEError εi εw εb)
  | [] => none
  | TaskOutcome.ok :: rest => firstWorkerFailure rest
  | TaskOutcome.errInit e :: _ => some (PFEError.initTaskError e)
  | TaskOutcome.errWork e :: _ => some (PFEError.workerTaskError e)
  | TaskOutcome.panicked _ :: rest => firstWorkerFailure rest

/-- The first failure the aggregation phase encounters: the supervisor's
failure is already computed when the join loop starts, so it comes first;
after it, worker failures in spawn order. -/
def firstFailure {εi εw εb π : Type} (bg : BgRes εb π)
    (ws : List (TaskOutcome εi εw π)) : Option (PFEError εi εw εb) :=
  match bg with
  | BgRes.err e => some (PFEError.backgroundTaskError e)
  | _ => firstWorkerFailure ws

/-- The first worker (in spawn order) that did not return `Ok(())`. -/
def firstNonOk {εi εw π : Type} :
    List (TaskOutcome εi εw π) → Option (TaskOutcome εi εw π)
  | [] => none
  | TaskOutcome.ok :: rest => firstNonOk rest
  | o :: _ => some o

/-- Sum of `id` over `[a, b)`, the value still to be handed out by a range
iterator sitting at `a` with end `b`. -/
def icoSum (a b : Nat) : Nat := (Finset.Ico a b).sum id

/-- The amount a worker still holds privately, measured through a valuation
`lv` of its local state: a pulled-but-unprocessed item also counts. -/
def lvStatus {σ εi εw π : Type} (lv : σ → Nat) : WStatus σ Nat εi εw π → Nat
  | WStatus.toInit => 0
  | WStatus.pulling s => lv s
  | WStatus.working s a => lv s + a
  | WStatus.terminated _ => 0

/-- Total amount held privately by the workers. -/
def lvSum {σ εi εw π : Type} (lv : σ → Nat) (ws : List (WStatus σ Nat εi εw π)) : Nat :=
  (ws.map (lvStatus lv)).sum

/-- Amount still inside the shared cursor, measured through `rem`. -/
def cursorVal {ι : Type} (rem : ι → Nat) : Option ι → Nat
  | some it => rem it
  | none => 0

/-- The iterator of `0..n`: state is the next value to yield. -/
def rangeIterNext (n : Nat) (cur : Nat) : Option Nat × Nat :=
  if cur < n then (some cur, cur + 1) else (none, cur)

/-- The `sum` test program: `0..n`, trivial init, work adds the item into the
shared accumulator, callback and local-state drop do nothing. -/
def sumProg (n : Nat) : Prog Nat Nat Unit Nat Unit Unit Unit where
  iterNext := rangeIterNext n
  initf := fun _ => TaskRes.ok ()
  workf := fun _ a acc => TaskRes.ok ((), acc + a)
  dropf := fun _ acc => acc
  callback := fun acc => acc

/-- The `sum_in_state` test program: `0..n`, the local state is a private
accumulator starting at 0, work adds the item into it, and the local state's
destructor folds it into the shared total (the `Drop` impl of the test). -/
def sumStateProg (n : Nat) : Prog Nat Nat Nat Nat Unit Unit Unit where
  iterNext := rangeIterNext n
  initf := fun _ => TaskRes.ok 0
  workf := fun s a acc => TaskRes.ok (s + a, acc)
  dropf := fun s acc => acc + s
  callback := fun acc => acc

/-- The `UglyIterator` of the `ugly_iterator` test, with state the source's
counter: at 0 it yields `Some(1)` forever; otherwise it decrements, reports
exhaustion when the counter hits 0, and yields `Some(1)` before that.
Started at `n + 1` it yields `n` ones, reports exhaustion once, and would
misbehave if polled again. -/
def uglyIterNext (k : Nat) : Option Nat × Nat :=
  if k = 0 then (some 1, 0)
  else if k - 1 = 0 then (none, k - 1)
  else (some 1, k - 1)

/-- The `ugly_iterator` test program: items summed into the shared
accumulator. -/
def uglyProg : Prog Nat Nat Unit Nat Unit Unit Unit where
  iterNext := uglyIterNext
  initf := fun _ => TaskRes.ok ()
  workf := fun _ a acc => TaskRes.ok ((), acc + a)
  dropf := fun _ acc => acc
  callback := fun acc => acc

/-- The infinite iterator `0..` used by the supervisor-stop test. -/
def natStreamNext (k : Nat) : Option Nat × Nat := (some k, k + 1)

/-- An engine program over the infinite sequence `0..` whose init and work
never fail: work adds the item into the shared accumulator. -/
def streamProg : Prog Nat Nat Unit Nat Unit Unit Unit where
  iterNext := natStreamNext
  initf := fun _ => TaskRes.ok ()
  workf := fun _ a acc => TaskRes.ok ((), acc + a)
  dropf := fun _ acc => acc
  callback := fun acc => acc

/-- A program over the empty sequence whose worker 0 returns an init error
and whose worker 1 panics during init (payloads are numbers). -/
def mixedFailProg : Prog Nat Nat Unit Nat Nat Nat Nat where
  iterNext := rangeIterNext 0
  initf := fun i => if i = 0 then TaskRes.err 7 else TaskRes.panic 99
  workf := fun _ a acc => TaskRes.ok ((), acc + a)
  dropf := fun _ acc => acc
  callback := fun acc => acc

/-- A program over the empty sequence whose worker 0 panics during init with
payload 42. -/
def panicInitProg : Prog Nat Nat Unit Nat Nat Nat Nat where
  iterNext := rangeIterNext 0
  initf := fun _ => TaskRes.panic 42
  workf := fun _ a acc => TaskRes.ok ((), acc + a)
  dropf := fun _ acc => acc
  callback := fun acc => acc

/-- A program whose worker 1 fails during init while worker 0 succeeds, over
the sequence `0..2`. -/
def initFailProg : Prog Nat Nat Unit Nat Nat Nat Nat where
  iterNext := rangeIterNext 2
  initf := fun i => if i = 0 then TaskRes.ok () else TaskRes.err 5
  workf := fun _ a acc => TaskRes.ok ((), acc + a)
  dropf := fun _ acc => acc
  callback := fun acc => acc

/-- The core structural invariant of a run, relative to the background result
and the spawned worker count `n`: the worker list never changes length;
`threads_running` counts the workers that have not yet terminated; the
callback has fired exactly once just when `threads_running` hit zero; once
any worker has terminated the cursor is stopped; and once the background
step has run with anything other than `Ok(Continue)` the cursor is
stopped. -/
structure Inv {ι α σ sh εi εw εb π : Type} (bg : BgRes εb π) (n : Nat)
    (c : Config ι α σ sh εi εw π) : Prop where
  hlen : c.workers.length = n
  hcnt : c.threadsRunning + c.workers.countP WStatus.isTerm = n
  hcb : c.callbackCount = if c.threadsRunning = 0 then 1 else 0
  hterm : 0 < c.workers.countP WStatus.isTerm → c.cursor = none
  hbg : bg ≠ BgRes.ok Continue.Continue → c.bgDone = true → c.cursor = none

/-- Status of a worker that has not failed: any live state, or termination
with `Ok(())`. -/
def WStatus.okOut {σ α εi εw π : Type} : WStatus σ α εi εw π → Bool
  | WStatus.terminated TaskOutcome.ok => true
  | WStatus.terminated _ => false
  | _ => true

/-- Conservation invariant for accumulating programs: the shared accumulator,
the amounts held privately by workers, and the amount still inside the
cursor always add up to the initial content `t` of the iterator; the cursor,
when present, stays well formed (`good`). -/
structure SumInv {ι σ εi εw π : Type} (lv : σ → Nat) (rem : ι → Nat)
    (good : ι → Prop) (t : Nat) (c : Config ι Nat σ Nat εi εw π) : Prop where
  hgood : ∀ it, c.cursor = some it → good it
  hsum : c.shared + lvSum lv c.workers + cursorVal rem c.cursor = t

/-! ### List auxiliaries -/

theorem countP_set_aux {X : Type} (p : X → Bool) :
    ∀ (l : List X) (i : Nat) (x y : X), l[i]? = some x →
      (l.set i y).countP p + (if p x then 1 else 0)
        = l.countP p + (if p y then 1 else 0) := by
  intro l
  induction l with
  | nil => intro i x y hx; simp at hx
  | cons hd tl ih =>
    intro i x y hx
    cases i with
    | zero =>
      simp only [List.getElem?_cons_zero, Option.some.injEq] at hx
      subst hx
      simp only [List.set_cons_zero, List.countP_cons]
      omega
    | succ j =>
      simp only [List.getElem?_cons_succ] at hx
      simp only [List.set_cons_succ, List.countP_cons]
      have := ih j x y hx
      omega

theorem sum_map_set_aux {X : Type} (f : X → Nat) :
    ∀ (l : List X) (i : Nat) (x y : X), l[i]? = some x →
      ((l.set i y).map f).sum + f x = (l.map f).sum + f y := by
  intro l
  induction l with
  | nil => intro i x y hx; simp at hx
  | cons hd tl ih =>
    intro i x y hx
    cases i with
    | zero =>
      simp only [List.getElem?_cons_zero, Option.some.injEq] at hx
      subst hx
      simp only [List.set_cons_zero, List.map_cons, List.sum_cons]
      omega
    | succ j =>
      simp only [List.getElem?_cons_succ] at hx
      simp only [List.set_cons_succ, List.map_cons, List.sum_cons]
      have := ih j x y hx
      omega

theorem mem_of_getElem?_aux {X : Type} {l : List X} {i : Nat} {x : X}
    (hx : l[i]? = some x) : x ∈ l := by
  induction l generalizing i with
  | nil => simp at hx
  | cons hd tl ih =>
    cases i with
    | zero =>
      simp only [List.getElem?_cons_zero, Option.some.injEq] at hx
      subst hx; exact List.mem_cons_self hd tl
    | succ j =>
      simp only [List.getElem?_cons_succ] at hx
      exact List.mem_cons_of_mem hd (ih hx)

theorem countP_lt_length_aux {X : Type} (p : X → Bool) (l : List X) (i : Nat) (x : X)
    (hx : l[i]? = some x) (hp : p x = false) : l.countP p < l.length := by
  rcases Nat.lt_or_ge (l.countP p) l.length with h | h
  · exact h
  · exfalso
    have heq : l.countP p = l.length := Nat.le_antisymm (List.countP_le_length p) h
    have := List.countP_eq_length.mp heq x (mem_of_getElem?_aux hx)
    rw [hp] at this
    exact Bool.false_ne_true this

/-! ### Basic run lemmas -/

theorem run_nil {ι α σ sh εi εw εb π : Type} (P : Prog ι α σ sh εi εw π)
    (bg : BgRes εb π) (c : Config ι α σ sh εi εw π) : run P bg c [] = c := rfl

theorem run_cons {ι α σ sh εi εw εb π : Type} (P : Prog ι α σ sh εi εw π)
    (bg : BgRes εb π) (c : Config ι α σ sh εi εw π) (e : Event) (evs : List Event) :
    run P bg c (e :: evs) = run P bg (step P bg c e) evs := rfl

theorem run_append {ι α σ sh εi εw εb π : Type} (P : Prog ι α σ sh εi εw π)
    (bg : BgRes εb π) (c : Config ι α σ sh εi εw π) (evs1 evs2 : List Event) :
    run P bg c (evs1 ++ evs2) = run P bg (run P bg c evs1) evs2 := by
  simp [run]

/-! ### Projections of the cleanup guard -/

theorem cleanupWith_cursor {ι α σ sh εi εw π : Type} (P : Prog ι α σ sh εi εw π)
    (c : Config ι α σ sh εi εw π) (i : Nat) (ls : Option σ) (o : TaskOutcome εi εw π) :
    (cleanupWith P c i ls o).cursor = none := rfl

theorem cleanupWith_workers {ι α σ sh εi εw π : Type} (P : Prog ι α σ sh εi εw π)
    (c : Config ι α σ sh εi εw π) (i : Nat) (ls : Option σ) (o : TaskOutcome εi εw π) :
    (cleanupWith P c i ls o).workers = c.workers.set i (WStatus.terminated o) := rfl

theorem cleanupWith_deliveredLog {ι α σ sh εi εw π : Type} (P : Prog ι α σ sh εi εw π)
    (c : Config ι α σ sh εi εw π) (i : Nat) (ls : Option σ) (o : TaskOutcome εi εw π) :
    (cleanupWith P c i ls o).deliveredLog = c.deliveredLog := rfl

theorem cleanupWith_threadsRunning {ι α σ sh εi εw π : Type} (P : Prog ι α σ sh εi εw π)
    (c : Config ι α σ sh εi εw π) (i : Nat) (ls : Option σ) (o : TaskOutcome εi εw π) :
    (cleanupWith P c i ls o).threadsRunning = c.threadsRunning - 1 := rfl

theorem cleanupWith_callbackCount {ι α σ sh εi εw π : Type} (P : Prog ι α σ sh εi εw π)
    (c : Config ι α σ sh εi εw π) (i : Nat) (ls : Option σ) (o : TaskOutcome εi εw π) :
    (cleanupWith P c i ls o).callbackCount
      = if c.threadsRunning - 1 = 0 then c.callbackCount + 1 else c.callbackCount := rfl

theorem cleanupWith_pollCount {ι α σ sh εi εw π : Type} (P : Prog ι α σ sh εi εw π)
    (c : Config ι α σ sh εi εw π) (i : Nat) (ls : Option σ) (o : TaskOutcome εi εw π) :
    (cleanupWith P c i ls o).pollCount = c.pollCount := rfl

theorem cleanupWith_shared_some {ι α σ sh εi εw π : Type} (P : Prog ι α σ sh εi εw π)
    (c : Config ι α σ sh εi εw π) (i : Nat) (s : σ) (o : TaskOutcome εi εw π) :
    (cleanupWith P c i (some s) o).shared
      = if c.threadsRunning - 1 = 0 then P.callback (P.dropf s c.shared)
        else P.dropf s c.shared := rfl

theorem cleanupWith_shared_none {ι α σ sh εi εw π : Type} (P : Prog ι α σ sh εi εw π)
    (c : Config ι α σ sh εi εw π) (i : Nat) (o : TaskOutcome εi εw π) :
    (cleanupWith P c i none o).shared
      = if c.threadsRunning - 1 = 0 then P.callback c.shared else c.shared := rfl

/-! ### Inversion of the cursor pull -/

theorem stateNext_eq_none {ι α : Type} (inext : ι → Option α × ι) (cur : Option ι)
    (r : Option ι) (h : stateNext inext cur = ((none : Option α), r)) :
    r = none ∧ (cur = none ∨ ∃ it r2, cur = some it ∧ inext it = (none, r2)) := by
  cases cur with
  | none =>
    simp only [stateNext, Prod.mk.injEq] at h
    exact ⟨h.2.symm, Or.inl rfl⟩
  | some it =>
    simp only [stateNext] at h
    cases hit : inext it with
    | mk oa it' =>
      cases oa with
      | none =>
        rw [hit] at h
        simp only [Prod.mk.injEq] at h
        exact ⟨h.2.symm, Or.inr ⟨it, it', rfl, hit⟩⟩
      | some a =>
        rw [hit] at h
        simp only [Prod.mk.injEq] at h
        exact absurd h.1 (by simp)

theorem stateNext_eq_some {ι α : Type} (inext : ι → Option α × ι) (cur : Option ι)
    (a : α) (r : Option ι) (h : stateNext inext cur = (some a, r)) :
    ∃ it it', cur = some it ∧ inext it = (some a, it') ∧ r = some it' := by
  cases cur with
  | none => simp [stateNext] at h
  | some it =>
    simp only [stateNext] at h
    cases hit : inext it with
    | mk oa it' =>
      cases oa with
      | none =>
        rw [hit] at h
        simp at h
      | some a0 =>
        rw [hit] at h
        simp only [Prod.mk.injEq, Option.some.injEq] at h
        rcases h with ⟨ha, hr⟩
        subst ha
        exact ⟨it, it', rfl, hit, hr.symm⟩

/-! ### The cursor never revives once stopped -/

theorem step_cursor_none {ι α σ sh εi εw εb π : Type} (P : Prog ι α σ sh εi εw π)
    (bg : BgRes εb π) (c : Config ι α σ sh εi εw π) (e : Event)
    (h : c.cursor = none) : (step P bg c e).cursor = none := by
  cases e with
  | bg =>
    simp only [step, bgStep]
    split
    · exact h
    · split
      · exact h
      · rfl
  | worker i =>
    simp only [step, workerStep]
    split
    · exact h
    · split
      · exact h
      · rfl
      · rfl
    · split
      · rfl
      · rename_i a cur' heq
        rw [h] at heq
        simp [stateNext] at heq
    · split
      · exact h
      · rfl
      · rfl
    · exact h

theorem run_cursor_none {ι α σ sh εi εw εb π : Type} (P : Prog ι α σ sh εi εw π)
    (bg : BgRes εb π) (c : Config ι α σ sh εi εw π) (evs : List Event)
    (h : c.cursor = none) : (run P bg c evs).cursor = none := by
  induction evs generalizing c with
  | nil => exact h
  | cons e evs ih => exact ih (step P bg c e) (step_cursor_none P bg c e h)

theorem step_deliveredLog_none {ι α σ sh εi εw εb π : Type} (P : Prog ι α σ sh εi εw π)
    (bg : BgRes εb π) (c : Config ι α σ sh εi εw π) (e : Event)
    (h : c.cursor = none) : (step P bg c e).deliveredLog = c.deliveredLog := by
  cases e with
  | bg =>
    simp only [step, bgStep]
    split
    · rfl
    · split
      · rfl
      · rfl
  | worker i =>
    simp only [step, workerStep]
    split
    · rfl
    · split
      · rfl
      · rfl
      · rfl
    · split
      · rfl
      · rename_i a cur' heq
        rw [h] at heq
        simp [stateNext] at heq
    · split
      · rfl
      · rfl
      · rfl
    · rfl

theorem run_deliveredLog_none {ι α σ sh εi εw εb π : Type} (P : Prog ι α σ sh εi εw π)
    (bg : BgRes εb π) (c : Config ι α σ sh εi εw π) (evs : List Event)
    (h : c.cursor = none) : (run P bg c evs).deliveredLog = c.deliveredLog := by
  induction evs generalizing c with
  | nil => rfl
  | cons e evs ih =>
    rw [run_cons, ih (step P bg c e) (step_cursor_none P bg c e h),
      step_deliveredLog_none P bg c e h]

/-! ### The core structural invariant -/

theorem countP_set_same {X : Type} (p : X → Bool) (l : List X) (i : Nat) (x y : X)
    (hx : l[i]? = some x) (hxp : p x = false) (hyp : p y = false) :
    (l.set i y).countP p = l.countP p := by
  have := countP_set_aux p l i x y hx
  rw [hxp, hyp] at this
  simpa using this

theorem countP_set_incr {X : Type} (p : X → Bool) (l : List X) (i : Nat) (x y : X)
    (hx : l[i]? = some x) (hxp : p x = false) (hyp : p y = true) :
    (l.set i y).countP p = l.countP p + 1 := by
  have := countP_set_aux p l i x y hx
  rw [hxp, hyp] at this
  simpa using this

theorem inv_cleanup {ι α σ sh εi εw εb π : Type} (P : Prog ι α σ sh εi εw π)
    (bg : BgRes εb π) (n : Nat) (c : Config ι α σ sh εi εw π) (i : Nat)
    (st : WStatus σ α εi εw π) (ls : Option σ) (o : TaskOutcome εi εw π)
    (hlen : c.workers.length = n)
    (hcnt : c.threadsRunning + c.workers.countP WStatus.isTerm = n)
    (hcb : c.callbackCount = if c.threadsRunning = 0 then 1 else 0)
    (hw : c.workers[i]? = some st) (hnt : WStatus.isTerm st = false) :
    Inv bg n (cleanupWith P c i ls o) := by
  have hlt : c.workers.countP WStatus.isTerm < n := by
    have := countP_lt_length_aux WStatus.isTerm c.workers i st hw hnt
    omega
  have htr : 1 ≤ c.threadsRunning := by omega
  have hset : (c.workers.set i (WStatus.terminated o)).countP WStatus.isTerm
      = c.workers.countP WStatus.isTerm + 1 :=
    countP_set_incr WStatus.isTerm c.workers i st (WStatus.terminated o) hw hnt rfl
  refine ⟨?_, ?_, ?_, fun _ => rfl, fun _ _ => rfl⟩
  · simp only [cleanupWith_workers, List.length_set]
    exact hlen
  · rw [cleanupWith_threadsRunning, cleanupWith_workers, hset]
    omega
  · have hne0 : c.threadsRunning ≠ 0 := by omega
    rw [cleanupWith_callbackCount, cleanupWith_threadsRunning, hcb, if_neg hne0]

theorem inv_step {ι α σ sh εi εw εb π : Type} (P : Prog ι α σ sh εi εw π)
    (bg : BgRes εb π) (n : Nat) (c : Config ι α σ sh εi εw π) (e : Event)
    (h : Inv bg n c) : Inv bg n (step P bg c e) := by
  cases e with
  | bg =>
    simp only [step, bgStep]
    split
    · exact h
    · split
      · exact ⟨h.hlen, h.hcnt, h.hcb, h.hterm, fun hne _ => absurd rfl hne⟩
      · exact ⟨h.hlen, h.hcnt, h.hcb, fun _ => rfl, fun _ _ => rfl⟩
  | worker i =>
    simp only [step, workerStep]
    split
    · exact h
    · rename_i hw
      split
      · rename_i s hinit
        refine ⟨?_, ?_, h.hcb, ?_, h.hbg⟩
        · simp only [List.length_set]; exact h.hlen
        · rw [countP_set_same WStatus.isTerm c.workers i WStatus.toInit
            (WStatus.pulling s) hw rfl rfl]
          exact h.hcnt
        · intro hpos
          apply h.hterm
          rwa [countP_set_same WStatus.isTerm c.workers i WStatus.toInit
            (WStatus.pulling s) hw rfl rfl] at hpos
      · exact inv_cleanup P bg n _ i WStatus.toInit none _ h.hlen h.hcnt h.hcb hw rfl
      · exact inv_cleanup P bg n _ i WStatus.toInit none _ h.hlen h.hcnt h.hcb hw rfl
    · rename_i s hw
      split
      · rename_i cur' hnext
        exact inv_cleanup P bg n _ i (WStatus.pulling s) (some s) _ h.hlen h.hcnt h.hcb hw rfl
      · rename_i a cur' hnext
        have hcur : ∃ it, c.cursor = some it := by
          cases hc : c.cursor with
          | none => rw [hc] at hnext; simp [stateNext] at hnext
          | some it => exact ⟨it, rfl⟩
        rcases hcur with ⟨it, hcur⟩
        have hcp : ¬ 0 < c.workers.countP WStatus.isTerm := by
          intro hpos
          rw [h.hterm hpos] at hcur
          exact Option.noConfusion hcur
        refine ⟨?_, ?_, h.hcb, ?_, ?_⟩
        · simp only [List.length_set]; exact h.hlen
        · rw [countP_set_same WStatus.isTerm c.workers i (WStatus.pulling s)
            (WStatus.working s a) hw rfl rfl]
          exact h.hcnt
        · intro hpos
          rw [countP_set_same WStatus.isTerm c.workers i (WStatus.pulling s)
            (WStatus.working s a) hw rfl rfl] at hpos
          exact absurd hpos hcp
        · intro hne hdone
          rw [h.hbg hne hdone] at hcur
          exact Option.noConfusion hcur
    · rename_i s a hw
      split
      · rename_i s' sh' hwork
        refine ⟨?_, ?_, h.hcb, ?_, h.hbg⟩
        · simp only [List.length_set]; exact h.hlen
        · rw [countP_set_same WStatus.isTerm c.workers i (WStatus.working s a)
            (WStatus.pulling s') hw rfl rfl]
          exact h.hcnt
        · intro hpos
          apply h.hterm
          rwa [countP_set_same WStatus.isTerm c.workers i (WStatus.working s a)
            (WStatus.pulling s') hw rfl rfl] at hpos
      · exact inv_cleanup P bg n _ i (WStatus.working s a) (some s) _ h.hlen h.hcnt h.hcb hw rfl
      · exact inv_cleanup P bg n _ i (WStatus.working s a) (some s) _ h.hlen h.hcnt h.hcb hw rfl
    · exact h

theorem inv_run {ι α σ sh εi εw εb π : Type} (P : Prog ι α σ sh εi εw π)
    (bg : BgRes εb π) (n : Nat) (c : Config ι α σ sh εi εw π) (evs : List Event)
    (h : Inv bg n c) : Inv bg n (run P bg c evs) := by
  induction evs generalizing c with
  | nil => exact h
  | cons e evs ih => exact ih (step P bg c e) (inv_step P bg n c e h)

theorem inv_initConfig {ι α σ sh εi εw εb π : Type} (bg : BgRes εb π)
    (i0 : ι) (sh0 : sh) (n : Nat) (hn : 0 < n) :
    Inv bg n (initConfig i0 sh0 n : Config ι α σ sh εi εw π) := by
  have hz : (List.replicate n (WStatus.toInit : WStatus σ α εi εw π)).countP WStatus.isTerm
      = 0 := by
    apply List.countP_eq_zero.mpr
    intro a ha
    rw [List.eq_of_mem_replicate ha]
    simp [WStatus.isTerm]
  have hne : n ≠ 0 := by omega
  refine ⟨?_, ?_, ?_, ?_, ?_⟩
  · simp [initConfig]
  · simp only [initConfig, hz]
    omega
  · simp only [initConfig, hne, if_false]
  · intro hpos
    simp only [initConfig, hz] at hpos
    omega
  · intro _ hdone
    simp only [initConfig] at hdone
    exact absurd hdone (by simp)

theorem inv_pfe {ι α σ sh εi εw εb π : Type} (P : Prog ι α σ sh εi εw π)
    (bg : BgRes εb π) (i0 : ι) (sh0 : sh) (n : Nat) (hn : 0 < n) (sched : List Event) :
    Inv bg n (pfe P bg i0 sh0 n sched) :=
  inv_run P bg n _ sched (inv_initConfig bg i0 sh0 n hn)

/-! ### Consequences of having finished -/

theorem finished_countP {ι α σ sh εi εw π : Type} (c : Config ι α σ sh εi εw π)
    (h : c.finished = true) : c.workers.countP WStatus.isTerm = c.workers.length := by
  apply List.countP_eq_length.mpr
  intro w hwmem
  have := (Bool.and_eq_true _ _).mp h
  exact (List.all_eq_true.mp this.2) w hwmem

theorem inv_finished_threads {ι α σ sh εi εw εb π : Type} (bg : BgRes εb π) (n : Nat)
    (c : Config ι α σ sh εi εw π) (hinv : Inv bg n c) (hfin : c.finished = true) :
    c.threadsRunning = 0 := by
  have h1 := finished_countP c hfin
  have h2 := hinv.hcnt
  rw [hinv.hlen] at h1
  omega

theorem inv_finished_callback {ι α σ sh εi εw εb π : Type} (bg : BgRes εb π) (n : Nat)
    (c : Config ι α σ sh εi εw π) (hinv : Inv bg n c) (hfin : c.finished = true) :
    c.callbackCount = 1 := by
  rw [hinv.hcb, inv_finished_threads bg n c hinv hfin]
  rfl

theorem inv_finished_cursor {ι α σ sh εi εw εb π : Type} (bg : BgRes εb π) (n : Nat)
    (c : Config ι α σ sh εi εw π) (hinv : Inv bg n c) (hfin : c.finished = true)
    (hn : 0 < n) : c.cursor = none := by
  apply hinv.hterm
  rw [finished_countP c hfin, hinv.hlen]
  exact hn

/-! ### Workers never fail when init and work always succeed -/

theorem all_set_aux {X : Type} (p : X → Bool) (l : List X) (i : Nat) (y : X)
    (hl : l.all p = true) (hy : p y = true) : (l.set i y).all p = true := by
  apply List.all_eq_true.mpr
  intro x hx
  rcases List.mem_or_eq_of_mem_set hx with hmem | hmem
  · exact List.all_eq_true.mp hl x hmem
  · subst hmem; exact hy

theorem okOut_step {ι α σ sh εi εw εb π : Type} (P : Prog ι α σ sh εi εw π)
    (bg : BgRes εb π) (c : Config ι α σ sh εi εw π) (e : Event)
    (hinit : ∀ i, ∃ s, P.initf i = TaskRes.ok s)
    (hwork : ∀ s a acc, ∃ r, P.workf s a acc = TaskRes.ok r)
    (h : c.workers.all WStatus.okOut = true) :
    (step P bg c e).workers.all WStatus.okOut = true := by
  cases e with
  | bg =>
    simp only [step, bgStep]
    split
    · exact h
    · split
      · exact h
      · exact h
  | worker i =>
    simp only [step, workerStep]
    split
    · exact h
    · split
      · exact all_set_aux _ _ _ _ h rfl
      · rename_i e' heq
        rcases hinit i with ⟨s, hs⟩
        rw [hs] at heq
        exact absurd heq (by simp)
      · rename_i p' heq
        rcases hinit i with ⟨s, hs⟩
        rw [hs] at heq
        exact absurd heq (by simp)
    · split
      · simp only [cleanupWith_workers]
        exact all_set_aux _ _ _ _ h rfl
      · exact all_set_aux _ _ _ _ h rfl
    · rename_i s a hw
      split
      · exact all_set_aux _ _ _ _ h rfl
      · rename_i e' heq
        rcases hwork s a c.shared with ⟨r, hr⟩
        rw [hr] at heq
        exact absurd heq (by simp)
      · rename_i p' heq
        rcases hwork s a c.shared with ⟨r, hr⟩
        rw [hr] at heq
        exact absurd heq (by simp)
    · exact h

theorem okOut_run {ι α σ sh εi εw εb π : Type} (P : Prog ι α σ sh εi εw π)
    (bg : BgRes εb π) (c : Config ι α σ sh εi εw π) (evs : List Event)
    (hinit : ∀ i, ∃ s, P.initf i = TaskRes.ok s)
    (hwork : ∀ s a acc, ∃ r, P.workf s a acc = TaskRes.ok r)
    (h : c.workers.all WStatus.okOut = true) :
    (run P bg c evs).workers.all WStatus.okOut = true := by
  induction evs generalizing c with
  | nil => exact h
  | cons e evs ih => exact ih (step P bg c e) (okOut_step P bg c e hinit hwork h)

theorem okOut_initConfig {ι α σ sh εi εw π : Type} (i0 : ι) (sh0 : sh) (n : Nat) :
    (initConfig i0 sh0 n : Config ι α σ sh εi εw π).workers.all WStatus.okOut = true := by
  apply List.all_eq_true.mpr
  intro w hw
  rw [List.eq_of_mem_replicate hw]
  rfl

theorem outcomes_ok {ι α σ sh εi εw π : Type} (c : Config ι α σ sh εi εw π)
    (hall : c.workers.all WStatus.okOut = true) :
    ∀ o ∈ outcomes c, o = TaskOutcome.ok := by
  intro o ho
  rcases List.mem_filterMap.mp ho with ⟨w, hw, hwo⟩
  have hok := List.all_eq_true.mp hall w hw
  cases w with
  | toInit => exact absurd hwo (by simp [WStatus.outcome?])
  | pulling s => exact absurd hwo (by simp [WStatus.outcome?])
  | working s a => exact absurd hwo (by simp [WStatus.outcome?])
  | terminated o' =>
    simp only [WStatus.outcome?, Option.some.injEq] at hwo
    subst hwo
    cases o' with
    | ok => rfl
    | errInit e => exact absurd hok (by simp [WStatus.okOut])
    | errWork e => exact absurd hok (by simp [WStatus.okOut])
    | panicked p => exact absurd hok (by simp [WStatus.okOut])

/-! ### Lemmas about the join loop and the aggregation -/

theorem joinWorkers_all_ok {εi εw εb π : Type} :
    ∀ ws : List (TaskOutcome εi εw π), (∀ o ∈ ws, o = TaskOutcome.ok) →
      (joinWorkers ws : EngineResult εi εw εb π) = EngineResult.ok := by
  intro ws
  induction ws with
  | nil => intro _; rfl
  | cons o rest ih =>
    intro h
    have ho := h o (List.mem_cons_self o rest)
    subst ho
    have := ih (fun o hmem => h o (List.mem_cons_of_mem _ hmem))
    simpa [joinWorkers] using this

theorem joinWorkers_no_panic {εi εw εb π : Type} :
    ∀ ws : List (TaskOutcome εi εw π), ws.any TaskOutcome.isPanic = false →
      (joinWorkers ws : EngineResult εi εw εb π)
        = match (firstWorkerFailure ws : Option (PFEError εi εw εb)) with
          | some e => EngineResult.err e
          | none => EngineResult.ok := by
  intro ws
  induction ws with
  | nil => intro _; rfl
  | cons o rest ih =>
    intro h
    rw [List.any_cons, Bool.or_eq_false_iff] at h
    cases o with
    | ok =>
      have := ih h.2
      simpa [joinWorkers, firstWorkerFailure] using this
    | errInit e => simp [joinWorkers, firstWorkerFailure, h.2]
    | errWork e => simp [joinWorkers, firstWorkerFailure, h.2]
    | panicked p => exact absurd h.1 (by simp [TaskOutcome.isPanic])

theorem joinWorkers_panic_exists {εi εw εb π : Type} :
    ∀ ws : List (TaskOutcome εi εw π), ws.any TaskOutcome.isPanic = true →
      ∃ q, (joinWorkers ws : EngineResult εi εw εb π) = EngineResult.panic q := by
  intro ws
  induction ws with
  | nil => intro h; exact absurd h (by simp)
  | cons o rest ih =>
    intro h
    cases o with
    | ok =>
      rw [List.any_cons] at h
      simp only [TaskOutcome.isPanic, Bool.false_or] at h
      rcases ih h with ⟨q, hq⟩
      exact ⟨q, by simpa [joinWorkers] using hq⟩
    | errInit e =>
      rw [List.any_cons] at h
      simp only [TaskOutcome.isPanic, Bool.false_or] at h
      exact ⟨Payload.unwrapAggregate, by simp [joinWorkers, h]⟩
    | errWork e =>
      rw [List.any_cons] at h
      simp only [TaskOutcome.isPanic, Bool.false_or] at h
      exact ⟨Payload.unwrapAggregate, by simp [joinWorkers, h]⟩
    | panicked p => exact ⟨Payload.user p, by simp [joinWorkers]⟩

theorem joinWorkers_first_err_panic {εi εw εb π : Type} :
    ∀ (ws : List (TaskOutcome εi εw π)) (o : TaskOutcome εi εw π),
      firstNonOk ws = some o → o.isPanic = false →
      ws.any TaskOutcome.isPanic = true →
      (joinWorkers ws : EngineResult εi εw εb π)
        = EngineResult.panic Payload.unwrapAggregate := by
  intro ws
  induction ws with
  | nil => intro o h _ _; exact absurd h (by simp [firstNonOk])
  | cons hd rest ih =>
    intro o h ho hp
    cases hd with
    | ok =>
      rw [List.any_cons] at hp
      simp only [TaskOutcome.isPanic, Bool.false_or] at hp
      have := ih o (by simpa [firstNonOk] using h) ho hp
      simpa [joinWorkers] using this
    | errInit e =>
      rw [List.any_cons] at hp
      simp only [TaskOutcome.isPanic, Bool.false_or] at hp
      simp [joinWorkers, hp]
    | errWork e =>
      rw [List.any_cons] at hp
      simp only [TaskOutcome.isPanic, Bool.false_or] at hp
      simp [joinWorkers, hp]
    | panicked p =>
      simp only [firstNonOk, Option.some.injEq] at h
      subst h
      exact absurd ho (by simp [TaskOutcome.isPanic])

theorem joinWorkers_first_panicked {εi εw εb π : Type} :
    ∀ (ws : List (TaskOutcome εi εw π)) (p : π),
      firstNonOk ws = some (TaskOutcome.panicked p) →
      (joinWorkers ws : EngineResult εi εw εb π) = EngineResult.panic (Payload.user p) := by
  intro ws
  induction ws with
  | nil => intro p h; exact absurd h (by simp [firstNonOk])
  | cons o rest ih =>
    intro p h
    cases o with
    | ok =>
      have := ih p (by simpa [firstNonOk] using h)
      simpa [joinWorkers] using this
    | errInit e => exact absurd h (by simp [firstNonOk])
    | errWork e => exact absurd h (by simp [firstNonOk])
    | panicked q =>
      simp only [firstNonOk, Option.some.injEq, TaskOutcome.panicked.injEq] at h
      subst h
      rfl

/-! ### Conservation invariant for accumulating programs -/

theorem lvSum_all_term {σ εi εw π : Type} (lv : σ → Nat)
    (ws : List (WStatus σ Nat εi εw π)) (h : ws.all WStatus.isTerm = true) :
    lvSum lv ws = 0 := by
  unfold lvSum
  apply List.sum_eq_zero
  intro x hx
  rcases List.mem_map.mp hx with ⟨w, hw, rfl⟩
  have hterm := List.all_eq_true.mp h w hw
  cases w with
  | toInit => exact absurd hterm (by simp [WStatus.isTerm])
  | pulling s => exact absurd hterm (by simp [WStatus.isTerm])
  | working s a => exact absurd hterm (by simp [WStatus.isTerm])
  | terminated o => rfl

theorem sumInv_cleanup_ok {ι σ εi εw π : Type} (P : Prog ι Nat σ Nat εi εw π)
    (lv : σ → Nat) (rem : ι → Nat) (good : ι → Prop) (t : Nat)
    (hdrop : ∀ s acc, P.dropf s acc = acc + lv s)
    (hcall : ∀ acc, P.callback acc = acc)
    (c : Config ι Nat σ Nat εi εw π) (i : Nat) (s : σ)
    (hw : c.workers[i]? = some (WStatus.pulling s))
    (hsum : c.shared + lvSum lv c.workers = t) :
    SumInv lv rem good t (cleanupWith P c i (some s) TaskOutcome.ok) := by
  constructor
  · intro it hit
    rw [cleanupWith_cursor] at hit
    exact Option.noConfusion hit
  · have hset := sum_map_set_aux (lvStatus lv) c.workers i (WStatus.pulling s)
      (WStatus.terminated TaskOutcome.ok) hw
    rw [cleanupWith_cursor, cleanupWith_workers, cleanupWith_shared_some,
      hdrop, hcall, ite_self]
    simp only [cursorVal, lvStatus] at *
    unfold lvSum at *
    omega

theorem sumInv_step {ι σ εi εw εb π : Type} (P : Prog ι Nat σ Nat εi εw π)
    (lv : σ → Nat) (rem : ι → Nat) (good : ι → Prop) (t : Nat)
    (hinit : ∀ i, ∃ s, P.initf i = TaskRes.ok s ∧ lv s = 0)
    (hwork : ∀ s a acc, ∃ s' acc', P.workf s a acc = TaskRes.ok (s', acc')
      ∧ lv s' + acc' = lv s + acc + a)
    (hdrop : ∀ s acc, P.dropf s acc = acc + lv s)
    (hcall : ∀ acc, P.callback acc = acc)
    (hyield : ∀ it a it', good it → P.iterNext it = (some a, it')
      → good it' ∧ rem it = a + rem it')
    (hend : ∀ it r, good it → P.iterNext it = (none, r) → rem it = 0)
    (c : Config ι Nat σ Nat εi εw π) (e : Event)
    (h : SumInv lv rem good t c) :
    SumInv lv rem good t (step P (BgRes.ok Continue.Continue : BgRes εb π) c e) := by
  cases e with
  | bg =>
    simp only [step, bgStep]
    split
    · exact h
    · exact ⟨h.hgood, h.hsum⟩
  | worker i =>
    simp only [step, workerStep]
    split
    · exact h
    · rename_i hw
      split
      · rename_i s heq
        rcases hinit i with ⟨s0, hs0, hlv0⟩
        rw [hs0] at heq
        injection heq with heq
        subst heq
        refine ⟨h.hgood, ?_⟩
        have hset := sum_map_set_aux (lvStatus lv) c.workers i WStatus.toInit
          (WStatus.pulling s0) hw
        have hsum := h.hsum
        dsimp only
        simp only [lvStatus, hlv0] at hset
        unfold lvSum at hsum ⊢
        omega
      · rename_i e' heq
        rcases hinit i with ⟨s0, hs0, _⟩
        rw [hs0] at heq
        exact absurd heq (by simp)
      · rename_i p' heq
        rcases hinit i with ⟨s0, hs0, _⟩
        rw [hs0] at heq
        exact absurd heq (by simp)
    · rename_i s hw
      split
      · rename_i cur' hnext
        rcases stateNext_eq_none P.iterNext c.cursor cur' hnext with ⟨hr, hcase⟩
        subst hr
        refine sumInv_cleanup_ok P lv rem good t hdrop hcall _ i s ?_ ?_
        · exact hw
        dsimp only
        rcases hcase with hcur | ⟨it, r2, hcur, hit⟩
        · have hsum := h.hsum
          rw [hcur] at hsum
          simpa [cursorVal] using hsum
        · have hgood := h.hgood it hcur
          have hrem := hend it r2 hgood hit
          have hsum := h.hsum
          rw [hcur] at hsum
          simp only [cursorVal, hrem] at hsum
          omega
      · rename_i a cur' hnext
        rcases stateNext_eq_some P.iterNext c.cursor a cur' hnext with
          ⟨it, it', hcur, hit, hr⟩
        subst hr
        have hgood := h.hgood it hcur
        rcases hyield it a it' hgood hit with ⟨hgood', hremeq⟩
        constructor
        · intro it2 hit2
          dsimp only at hit2
          rw [Option.some.injEq] at hit2
          subst hit2
          exact hgood'
        · dsimp only
          have hset := sum_map_set_aux (lvStatus lv) c.workers i (WStatus.pulling s)
            (WStatus.working s a) hw
          have hsum := h.hsum
          rw [hcur] at hsum
          simp only [cursorVal, lvStatus] at *
          unfold lvSum at hsum ⊢
          omega
    · rename_i s a hw
      split
      · rename_i s' sh' heq
        rcases hwork s a c.shared with ⟨s0, acc0, heq0, hbal⟩
        rw [heq0] at heq
        injection heq with heq
        injection heq with h1 h2
        subst h1
        subst h2
        refine ⟨h.hgood, ?_⟩
        dsimp only
        have hset := sum_map_set_aux (lvStatus lv) c.workers i (WStatus.working s a)
          (WStatus.pulling s0) hw
        have hsum := h.hsum
        simp only [lvStatus] at hset
        unfold lvSum at hsum ⊢
        cases hc : c.cursor <;> rw [hc] at hsum <;> simp only [cursorVal] at hsum ⊢ <;> omega
      · rename_i e' heq
        rcases hwork s a c.shared with ⟨s0, acc0, heq0, _⟩
        rw [heq0] at heq
        exact absurd heq (by simp)
      · rename_i p' heq
        rcases hwork s a c.shared with ⟨s0, acc0, heq0, _⟩
        rw [heq0] at heq
        exact absurd heq (by simp)
    · exact h

theorem sumInv_run {ι σ εi εw εb π : Type} (P : Prog ι Nat σ Nat εi εw π)
    (lv : σ → Nat) (rem : ι → Nat) (good : ι → Prop) (t : Nat)
    (hinit : ∀ i, ∃ s, P.initf i = TaskRes.ok s ∧ lv s = 0)
    (hwork : ∀ s a acc, ∃ s' acc', P.workf s a acc = TaskRes.ok (s', acc')
      ∧ lv s' + acc' = lv s + acc + a)
    (hdrop : ∀ s acc, P.dropf s acc = acc + lv s)
    (hcall : ∀ acc, P.callback acc = acc)
    (hyield : ∀ it a it', good it → P.iterNext it = (some a, it')
      → good it' ∧ rem it = a + rem it')
    (hend : ∀ it r, good it → P.iterNext it = (none, r) → rem it = 0)
    (c : Config ι Nat σ Nat εi εw π) (evs : List Event)
    (h : SumInv lv rem good t c) :
    SumInv lv rem good t (run P (BgRes.ok Continue.Continue : BgRes εb π) c evs) := by
  induction evs generalizing c with
  | nil => exact h
  | cons e evs ih =>
    exact ih _ (sumInv_step P lv rem good t hinit hwork hdrop hcall hyield hend c e h)

theorem sumInv_initConfig {ι σ εi εw π : Type} (lv : σ → Nat) (rem : ι → Nat)
    (good : ι → Prop) (i0 : ι) (n : Nat) (hg : good i0) :
    SumInv lv rem good (rem i0) (initConfig i0 0 n : Config ι Nat σ Nat εi εw π) := by
  constructor
  · intro it hit
    simp only [initConfig, Option.some.injEq] at hit
    subst hit
    exact hg
  · simp only [initConfig, lvSum, cursorVal, List.map_replicate]
    have : lvStatus lv (WStatus.toInit : WStatus σ Nat εi εw π) = 0 := rfl
    rw [this]
    simp

theorem sumInv_finished_shared {ι σ εi εw εb π : Type}
    (bg : BgRes εb π) (lv : σ → Nat) (rem : ι → Nat) (good : ι → Prop) (t n : Nat)
    (c : Config ι Nat σ Nat εi εw π) (hinv : Inv bg n c) (hs : SumInv lv rem good t c)
    (hfin : c.finished = true) (hn : 0 < n) : c.shared = t := by
  have hcur := inv_finished_cursor bg n c hinv hfin hn
  have hlv : lvSum lv c.workers = 0 := by
    apply lvSum_all_term
    exact ((Bool.and_eq_true _ _).mp hfin).2
  have hsum := hs.hsum
  rw [hcur, hlv] at hsum
  simpa [cursorVal] using hsum

/-! ### Poll counting for the misbehaving iterator -/

/-- Invariant tying the number of polls of the `UglyIterator` to its counter:
`pollCount + counter` stays `n + 1`, so once the cursor is cleared the total
number of polls is at most `n + 1` — the `n` yields plus the single poll that
reported exhaustion. -/
def PollInv (n : Nat) {σ εi εw π : Type} (c : Config Nat Nat σ Nat εi εw π) : Prop :=
  match c.cursor with
  | some k => 1 ≤ k ∧ c.pollCount + k = n + 1
  | none => c.pollCount ≤ n + 1

theorem uglyIterNext_good (k : Nat) (hk : 1 ≤ k) :
    (∀ a k', uglyIterNext k = (some a, k') → a = 1 ∧ k' = k - 1 ∧ 2 ≤ k)
    ∧ (∀ r, uglyIterNext k = (none, r) → k = 1) := by
  constructor
  · intro a k' hk2
    unfold uglyIterNext at hk2
    rw [if_neg (by omega)] at hk2
    by_cases h1 : k - 1 = 0
    · rw [if_pos h1] at hk2
      exact absurd hk2 (by simp)
    · rw [if_neg h1] at hk2
      simp only [Prod.mk.injEq, Option.some.injEq] at hk2
      exact ⟨hk2.1.symm, hk2.2.symm, by omega⟩
  · intro r hk2
    unfold uglyIterNext at hk2
    rw [if_neg (by omega)] at hk2
    by_cases h1 : k - 1 = 0
    · omega
    · rw [if_neg h1] at hk2
      exact absurd hk2 (by simp)

theorem pollInv_step {σ εi εw εb π : Type} (P : Prog Nat Nat σ Nat εi εw π)
    (hiter : P.iterNext = uglyIterNext) (bg : BgRes εb π)
    (hbg : bg = BgRes.ok Continue.Continue) (n : Nat)
    (c : Config Nat Nat σ Nat εi εw π) (e : Event)
    (h : PollInv n c) : PollInv n (step P bg c e) := by
  subst hbg
  cases e with
  | bg =>
    simp only [step, bgStep]
    split
    · exact h
    · exact h
  | worker i =>
    simp only [step, workerStep]
    split
    · exact h
    · split
      · unfold PollInv at h ⊢
        dsimp only
        exact h
      · unfold PollInv at h ⊢
        rw [cleanupWith_cursor, cleanupWith_pollCount]
        dsimp only
        cases hc : c.cursor with
        | none => rw [hc] at h; exact h
        | some k => rw [hc] at h; omega
      · unfold PollInv at h ⊢
        rw [cleanupWith_cursor, cleanupWith_pollCount]
        dsimp only
        cases hc : c.cursor with
        | none => rw [hc] at h; exact h
        | some k => rw [hc] at h; omega
    · rename_i s hw
      split
      · rename_i cur' hnext
        rcases stateNext_eq_none P.iterNext c.cursor cur' hnext with ⟨hr, hcase⟩
        unfold PollInv at h ⊢
        rw [cleanupWith_cursor, cleanupWith_pollCount]
        dsimp only
        rcases hcase with hcur | ⟨it, r2, hcur, hit⟩
        · rw [hcur] at h ⊢
          simpa using h
        · rw [hcur] at h ⊢
          rw [hiter] at hit
          have h1 := ((uglyIterNext_good it h.1).2 r2 hit)
          simp only [Option.isSome_some, if_true]
          omega
      · rename_i a cur' hnext
        rcases stateNext_eq_some P.iterNext c.cursor a cur' hnext with
          ⟨it, it', hcur, hit, hr⟩
        subst hr
        unfold PollInv at h ⊢
        rw [hcur] at h
        dsimp only
        rw [hiter] at hit
        rcases (uglyIterNext_good it h.1).1 a it' hit with ⟨ha, hit', hge⟩
        subst hit'
        constructor
        · omega
        · omega
    · split
      · unfold PollInv at h ⊢
        dsimp only
        exact h
      · unfold PollInv at h ⊢
        rw [cleanupWith_cursor, cleanupWith_pollCount]
        dsimp only
        cases hc : c.cursor with
        | none => rw [hc] at h; exact h
        | some k => rw [hc] at h; omega
      · unfold PollInv at h ⊢
        rw [cleanupWith_cursor, cleanupWith_pollCount]
        dsimp only
        cases hc : c.cursor with
        | none => rw [hc] at h; exact h
        | some k => rw [hc] at h; omega
    · exact h

theorem pollInv_run {σ εi εw εb π : Type} (P : Prog Nat Nat σ Nat εi εw π)
    (hiter : P.iterNext = uglyIterNext) (bg : BgRes εb π)
    (hbg : bg = BgRes.ok Continue.Continue) (n : Nat)
    (c : Config Nat Nat σ Nat εi εw π) (evs : List Event)
    (h : PollInv n c) : PollInv n (run P bg c evs) := by
  induction evs generalizing c with
  | nil => exact h
  | cons e evs ih => exact ih _ (pollInv_step P hiter bg hbg n c e h)

/-! ### The init log -/

/-- Whether a worker status shows that `init_fun` has already been called. -/
def startedB {σ α εi εw π : Type} : Option (WStatus σ α εi εw π) → Bool
  | some WStatus.toInit => false
  | some _ => true
  | none => false

/-- Invariant for the init/pull ghost logs: a worker id below `n` is in the
init log exactly once just when that worker has left the `toInit` state, no
other ids are ever logged, and every id that performed a pull was logged by
init before. -/
structure InitInv {ι α σ sh εi εw π : Type} (n : Nat)
    (c : Config ι α σ sh εi εw π) : Prop where
  hlen : c.workers.length = n
  hcount : ∀ i, i < n → c.initLog.count i = (if startedB c.workers[i]? then 1 else 0)
  hrange : ∀ i ∈ c.initLog, i < n
  hpull : ∀ i ∈ c.pullLog, i ∈ c.initLog

theorem lt_length_of_getElem? {X : Type} {l : List X} {i : Nat} {x : X}
    (h : l[i]? = some x) : i < l.length := by
  rcases List.getElem?_eq_some_iff.mp h with ⟨hlt, _⟩
  exact hlt

theorem initInv_mark {ι α σ sh εi εw π : Type} (n : Nat)
    (c c' : Config ι α σ sh εi εw π) (i : Nat) (w' : WStatus σ α εi εw π)
    (h : InitInv n c) (hw : c.workers[i]? = some WStatus.toInit)
    (hw' : startedB (some w') = true)
    (hws : c'.workers = c.workers.set i w')
    (hlog : c'.initLog = c.initLog ++ [i])
    (hpl : c'.pullLog = c.pullLog) :
    InitInv n c' := by
  have hin : i < n := by
    have := lt_length_of_getElem? hw
    rw [h.hlen] at this
    exact this
  refine ⟨?_, ?_, ?_, ?_⟩
  · rw [hws, List.length_set]
    exact h.hlen
  · intro j hj
    rw [hlog, List.count_append, hws]
    by_cases hij : j = i
    · subst hij
      rw [List.getElem?_set_self (by rw [h.hlen]; exact hj), h.hcount j hj, hw, hw']
      simp [startedB, List.count_singleton]
    · rw [List.getElem?_set_ne (fun hcon => hij hcon.symm), h.hcount j hj]
      have : List.count j [i] = 0 := by
        apply List.count_eq_zero.mpr
        simp [hij]
      omega
  · intro j hj
    rw [hlog] at hj
    rcases List.mem_append.mp hj with hj | hj
    · exact h.hrange j hj
    · rw [List.mem_singleton.mp hj]
      exact hin
  · intro j hj
    rw [hpl] at hj
    rw [hlog]
    exact List.mem_append_left _ (h.hpull j hj)

theorem initInv_started {ι α σ sh εi εw π : Type} (n : Nat)
    (c c' : Config ι α σ sh εi εw π) (i : Nat) (old w' : WStatus σ α εi εw π)
    (h : InitInv n c) (hw : c.workers[i]? = some old)
    (hold : startedB (some old) = true) (hw' : startedB (some w') = true)
    (hws : c'.workers = c.workers.set i w')
    (hlog : c'.initLog = c.initLog)
    (hpl : c'.pullLog = c.pullLog ∨ c'.pullLog = c.pullLog ++ [i]) :
    InitInv n c' := by
  have hin : i < n := by
    have := lt_length_of_getElem? hw
    rw [h.hlen] at this
    exact this
  refine ⟨?_, ?_, ?_, ?_⟩
  · rw [hws, List.length_set]
    exact h.hlen
  · intro j hj
    rw [hlog, hws]
    by_cases hij : j = i
    · subst hij
      rw [List.getElem?_set_self (by rw [h.hlen]; exact hj), h.hcount j hj, hw, hold, hw']
    · rw [List.getElem?_set_ne (fun hcon => hij hcon.symm), h.hcount j hj]
  · intro j hj
    rw [hlog] at hj
    exact h.hrange j hj
  · have hmem : i ∈ c.initLog := by
      apply List.count_pos_iff.mp
      rw [h.hcount i hin, hw, hold]
      simp
    intro j hj
    rw [hlog]
    rcases hpl with hpl | hpl
    · rw [hpl] at hj
      exact h.hpull j hj
    · rw [hpl] at hj
      rcases List.mem_append.mp hj with hj | hj
      · exact h.hpull j hj
      · rw [List.mem_singleton.mp hj]
        exact hmem

theorem initInv_step {ι α σ sh εi εw εb π : Type} (P : Prog ι α σ sh εi εw π)
    (bg : BgRes εb π) (n : Nat) (c : Config ι α σ sh εi εw π) (e : Event)
    (h : InitInv n c) : InitInv n (step P bg c e) := by
  cases e with
  | bg =>
    simp only [step, bgStep]
    split
    · exact h
    · split
      · exact ⟨h.hlen, h.hcount, h.hrange, h.hpull⟩
      · exact ⟨h.hlen, h.hcount, h.hrange, h.hpull⟩
  | worker i =>
    simp only [step, workerStep]
    split
    · exact h
    · rename_i hw
      split
      · rename_i s heq
        exact initInv_mark n c _ i (WStatus.pulling s) h hw rfl rfl rfl rfl
      · rename_i e0 heq
        exact initInv_mark n c _ i (WStatus.terminated (TaskOutcome.errInit e0))
          h hw rfl rfl rfl rfl
      · rename_i p0 heq
        exact initInv_mark n c _ i (WStatus.terminated (TaskOutcome.panicked p0))
          h hw rfl rfl rfl rfl
    · rename_i s hw
      split
      · exact initInv_started n c _ i _ (WStatus.terminated TaskOutcome.ok)
          h hw rfl rfl rfl rfl (Or.inr rfl)
      · rename_i a cur' hnext
        exact initInv_started n c _ i _ (WStatus.working s a)
          h hw rfl rfl rfl rfl (Or.inr rfl)
    · rename_i s a hw
      split
      · rename_i s' sh' heq
        exact initInv_started n c _ i _ (WStatus.pulling s')
          h hw rfl rfl rfl rfl (Or.inl rfl)
      · rename_i e0 heq
        exact initInv_started n c _ i _ (WStatus.terminated (TaskOutcome.errWork e0))
          h hw rfl rfl rfl rfl (Or.inl rfl)
      · rename_i p0 heq
        exact initInv_started n c _ i _ (WStatus.terminated (TaskOutcome.panicked p0))
          h hw rfl rfl rfl rfl (Or.inl rfl)
    · exact h

theorem initInv_run {ι α σ sh εi εw εb π : Type} (P : Prog ι α σ sh εi εw π)
    (bg : BgRes εb π) (n : Nat) (c : Config ι α σ sh εi εw π) (evs : List Event)
    (h : InitInv n c) : InitInv n (run P bg c evs) := by
  induction evs generalizing c with
  | nil => exact h
  | cons e evs ih => exact ih _ (initInv_step P bg n c e h)

theorem initInv_initConfig {ι α σ sh εi εw π : Type} (i0 : ι) (sh0 : sh) (n : Nat) :
    InitInv n (initConfig i0 sh0 n : Config ι α σ sh εi εw π) := by
  refine ⟨?_, ?_, ?_, ?_⟩
  · simp [initConfig]
  · intro i hi
    simp [initConfig, List.getElem?_replicate, hi, startedB]
  · intro i hi
    simp [initConfig] at hi
  · intro i hi
    simp [initConfig] at hi

/-! ### Instantiation for the concrete programs -/

theorem rangeIterNext_yield (n : Nat) : ∀ cur a cur2, rangeIterNext n cur = (some a, cur2)
    → icoSum cur n = a + icoSum cur2 n := by
  intro cur a cur2 h
  unfold rangeIterNext at h
  by_cases hlt : cur < n
  · rw [if_pos hlt] at h
    simp only [Prod.mk.injEq, Option.some.injEq] at h
    rcases h with ⟨ha, hcur⟩
    subst ha
    subst hcur
    unfold icoSum
    rw [Finset.sum_eq_sum_Ico_succ_bot hlt]
    rfl
  · rw [if_neg hlt] at h
    simp at h

theorem rangeIterNext_end (n : Nat) : ∀ cur r, rangeIterNext n cur = (none, r)
    → icoSum cur n = 0 := by
  intro cur r h
  unfold rangeIterNext at h
  by_cases hlt : cur < n
  · rw [if_pos hlt] at h
    simp at h
  · unfold icoSum
    rw [Finset.Ico_eq_empty (by omega), Finset.sum_empty]

theorem icoSum_zero (n : Nat) : icoSum 0 n = n * (n - 1) / 2 := by
  unfold icoSum
  rw [← Finset.range_eq_Ico]
  simpa using Finset.sum_range_id n

theorem sumProg_final (n nw : Nat) (hn : 0 < nw) (sched : List Event)
    (hfin : (pfe (sumProg n) (BgRes.ok Continue.Continue : BgRes Unit Unit)
      0 0 nw sched).finished = true) :
    pfeResult (sumProg n) (BgRes.ok Continue.Continue : BgRes Unit Unit) 0 0 nw sched
        = EngineResult.ok
    ∧ (pfe (sumProg n) (BgRes.ok Continue.Continue : BgRes Unit Unit)
        0 0 nw sched).shared = n * (n - 1) / 2 := by
  have hinv := inv_pfe (sumProg n) (BgRes.ok Continue.Continue : BgRes Unit Unit)
    0 0 nw hn sched
  have hok := okOut_run (sumProg n) (BgRes.ok Continue.Continue : BgRes Unit Unit)
    (initConfig 0 0 nw) sched (fun i => ⟨(), rfl⟩)
    (fun s a acc => ⟨((), acc + a), rfl⟩) (okOut_initConfig 0 0 nw)
  have hsum : SumInv (fun _ : Unit => 0) (fun cur => icoSum cur n) (fun _ => True)
      (icoSum 0 n) (pfe (sumProg n) (BgRes.ok Continue.Continue : BgRes Unit Unit)
        0 0 nw sched) := by
    apply sumInv_run
    · exact fun i => ⟨(), rfl, rfl⟩
    · intro s a acc
      exact ⟨(), acc + a, rfl, by omega⟩
    · intro s acc
      simp [sumProg]
    · intro acc
      rfl
    · intro it a it' _ hy
      exact ⟨trivial, rangeIterNext_yield n it a it' hy⟩
    · intro it r _ he
      exact rangeIterNext_end n it r he
    · exact sumInv_initConfig _ _ _ 0 nw trivial
  constructor
  · have hwsok := outcomes_ok _ hok
    unfold pfeResult
    exact joinWorkers_all_ok _ hwsok
  · rw [sumInv_finished_shared (BgRes.ok Continue.Continue : BgRes Unit Unit)
      (fun _ : Unit => 0) (fun cur => icoSum cur n) (fun _ => True) (icoSum 0 n) nw
      _ hinv hsum hfin hn]
    exact icoSum_zero n

theorem sumStateProg_final (n nw : Nat) (hn : 0 < nw) (sched : List Event)
    (hfin : (pfe (sumStateProg n) (BgRes.ok Continue.Continue : BgRes Unit Unit)
      0 0 nw sched).finished = true) :
    pfeResult (sumStateProg n) (BgRes.ok Continue.Continue : BgRes Unit Unit) 0 0 nw sched
        = EngineResult.ok
    ∧ (pfe (sumStateProg n) (BgRes.ok Continue.Continue : BgRes Unit Unit)
        0 0 nw sched).shared = n * (n - 1) / 2 := by
  have hinv := inv_pfe (sumStateProg n) (BgRes.ok Continue.Continue : BgRes Unit Unit)
    0 0 nw hn sched
  have hok := okOut_run (sumStateProg n) (BgRes.ok Continue.Continue : BgRes Unit Unit)
    (initConfig 0 0 nw) sched (fun i => ⟨0, rfl⟩)
    (fun s a acc => ⟨(s + a, acc), rfl⟩) (okOut_initConfig 0 0 nw)
  have hsum : SumInv (fun s : Nat => s) (fun cur => icoSum cur n) (fun _ => True)
      (icoSum 0 n) (pfe (sumStateProg n) (BgRes.ok Continue.Continue : BgRes Unit Unit)
        0 0 nw sched) := by
    apply sumInv_run
    · exact fun i => ⟨0, rfl, rfl⟩
    · intro s a acc
      exact ⟨s + a, acc, rfl, by omega⟩
    · intro s acc
      rfl
    · intro acc
      rfl
    · intro it a it' _ hy
      exact ⟨trivial, rangeIterNext_yield n it a it' hy⟩
    · intro it r _ he
      exact rangeIterNext_end n it r he
    · exact sumInv_initConfig _ _ _ 0 nw trivial
  constructor
  · have hwsok := outcomes_ok _ hok
    unfold pfeResult
    exact joinWorkers_all_ok _ hwsok
  · rw [sumInv_finished_shared (BgRes.ok Continue.Continue : BgRes Unit Unit)
      (fun s : Nat => s) (fun cur => icoSum cur n) (fun _ => True) (icoSum 0 n) nw
      _ hinv hsum hfin hn]
    exact icoSum_zero n

theorem uglyProg_final (n nw : Nat) (hn : 0 < nw) (sched : List Event)
    (hfin : (pfe uglyProg (BgRes.ok Continue.Continue : BgRes Unit Unit)
      (n + 1) 0 nw sched).finished = true) :
    (pfe uglyProg (BgRes.ok Continue.Continue : BgRes Unit Unit)
        (n + 1) 0 nw sched).shared = n
    ∧ (pfe uglyProg (BgRes.ok Continue.Continue : BgRes Unit Unit)
        (n + 1) 0 nw sched).pollCount ≤ n + 1 := by
  have hinv := inv_pfe uglyProg (BgRes.ok Continue.Continue : BgRes Unit Unit)
    (n + 1) 0 nw hn sched
  have hsum : SumInv (fun _ : Unit => 0) (fun k => k - 1) (fun k => 1 ≤ k)
      n (pfe uglyProg (BgRes.ok Continue.Continue : BgRes Unit Unit)
        (n + 1) 0 nw sched) := by
    have h0 : (n + 1 : Nat) - 1 = n := by omega
    rw [← h0]
    apply sumInv_run
    · exact fun i => ⟨(), rfl, rfl⟩
    · intro s a acc
      exact ⟨(), acc + a, rfl, by omega⟩
    · intro s acc
      simp [uglyProg]
    · intro acc
      rfl
    · intro it a it' hg hy
      rcases (uglyIterNext_good it hg).1 a it' hy with ⟨ha, hit', h2⟩
      subst ha
      subst hit'
      omega
    · intro it r hg he
      have := (uglyIterNext_good it hg).2 r he
      omega
    · exact sumInv_initConfig _ _ _ (n + 1) nw (by omega)
  have hpoll : PollInv n (pfe uglyProg (BgRes.ok Continue.Continue : BgRes Unit Unit)
      (n + 1) 0 nw sched) := by
    apply pollInv_run uglyProg rfl _ rfl
    show 1 ≤ n + 1 ∧ 0 + (n + 1) = n + 1
    exact ⟨by omega, by omega⟩
  constructor
  · exact sumInv_finished_shared (BgRes.ok Continue.Continue : BgRes Unit Unit)
      (fun _ : Unit => 0) (fun k => k - 1) (fun k => 1 ≤ k) n nw _ hinv hsum hfin hn
  · have hcur := inv_finished_cursor (BgRes.ok Continue.Continue : BgRes Unit Unit)
      nw _ hinv hfin hn
    unfold PollInv at hpoll
    rw [hcur] at hpoll
    exact hpoll

/-! ### The claims -/

/-- C1: for every worker-count policy, every program (hence every input
sequence, every behaviour of init/work including errors and panics) and
every background result, under every schedule: whenever the run has finished
(the point at which `parallel_for_each` can return), the finished callback
has run exactly once; it never runs more than once; and once it has run,
every worker has terminated, so no worker pulls from the cursor afterwards. -/
theorem claim1_callback_exactly_once {ι α σ sh εi εw εb π : Type}
    (P : Prog ι α σ sh εi εw π) (bg : BgRes εb π) (i0 : ι) (sh0 : sh)
    (wc : WorkerCount) (cpus : Nat) (hn : 0 < resolveWorkerCount wc cpus)
    (sched : List Event) :
    ((pfe P bg i0 sh0 (resolveWorkerCount wc cpus) sched).finished = true →
      (pfe P bg i0 sh0 (resolveWorkerCount wc cpus) sched).callbackCount = 1)
    ∧ (pfe P bg i0 sh0 (resolveWorkerCount wc cpus) sched).callbackCount ≤ 1
    ∧ (1 ≤ (pfe P bg i0 sh0 (resolveWorkerCount wc cpus) sched).callbackCount →
        (pfe P bg i0 sh0 (resolveWorkerCount wc cpus) sched).workers.all
          WStatus.isTerm = true) := by
  have hinv := inv_pfe P bg i0 sh0 (resolveWorkerCount wc cpus) hn sched
  refine ⟨?_, ?_, ?_⟩
  · intro hfin
    exact inv_finished_callback bg _ _ hinv hfin
  · rw [hinv.hcb]
    split <;> omega
  · intro hge
    rw [hinv.hcb] at hge
    have h0 : (pfe P bg i0 sh0 (resolveWorkerCount wc cpus) sched).threadsRunning = 0 := by
      by_contra hne
      rw [if_neg hne] at hge
      omega
    have hcnt := hinv.hcnt
    have hlen := hinv.hlen
    apply List.all_eq_true.mpr
    apply List.countP_eq_length.mp
    omega

theorem claim1_witness :
    (pfe (sumProg 1) (BgRes.ok Continue.Continue : BgRes Unit Unit) 0 0
        (resolveWorkerCount (WorkerCount.Manual 1) 1)
        [Event.worker 0, Event.worker 0, Event.worker 0, Event.worker 0,
          Event.bg]).finished = true
    ∧ (pfe (sumProg 1) (BgRes.ok Continue.Continue : BgRes Unit Unit) 0 0
        (resolveWorkerCount (WorkerCount.Manual 1) 1)
        [Event.worker 0, Event.worker 0, Event.worker 0, Event.worker 0,
          Event.bg]).callbackCount = 1 :=
  ⟨by decide,
    (claim1_callback_exactly_once (sumProg 1)
      (BgRes.ok Continue.Continue : BgRes Unit Unit) 0 0 (WorkerCount.Manual 1) 1
      (by decide)
      [Event.worker 0, Event.worker 0, Event.worker 0, Event.worker 0,
        Event.bg]).1 (by decide)⟩

/-- C2: when the run terminates without any panic (no worker panicked and
the supervisor did not panic), `parallel_for_each` returns exactly the first
failure the aggregation encounters — the supervisor's failure, which is
already computed before the join loop starts, and otherwise the first
failing worker in spawn order — wrapped as `InitTaskError`,
`WorkerTaskError` or `BackgroundTaskError` around the original error value,
and `Ok(())` when there is no failure. -/
theorem claim2_first_failure {ι α σ sh εi εw εb π : Type}
    (P : Prog ι α σ sh εi εw π) (bg : BgRes εb π) (i0 : ι) (sh0 : sh)
    (n : Nat) (hn : 0 < n) (sched : List Event)
    (hfin : (pfe P bg i0 sh0 n sched).finished = true)
    (hbg : bg.isPanicB = false)
    (hnp : (outcomes (pfe P bg i0 sh0 n sched)).any TaskOutcome.isPanic = false) :
    pfeResult P bg i0 sh0 n sched
      = match firstFailure bg (outcomes (pfe P bg i0 sh0 n sched)) with
        | some e => EngineResult.err e
        | none => EngineResult.ok := by
  unfold pfeResult finalResult firstFailure
  cases bg with
  | ok s => exact joinWorkers_no_panic _ hnp
  | err e => rw [hnp]; rfl
  | panic p => exact absurd hbg (by simp [BgRes.isPanicB])

theorem claim2_witness :
    pfeResult initFailProg (BgRes.ok Continue.Continue : BgRes Nat Nat) 0 0 2
      [Event.worker 0, Event.worker 1, Event.worker 0, Event.bg]
      = EngineResult.err (PFEError.initTaskError 5) := by
  rw [claim2_first_failure initFailProg (BgRes.ok Continue.Continue : BgRes Nat Nat)
    0 0 2 (by decide) [Event.worker 0, Event.worker 1, Event.worker 0, Event.bg]
    (by decide) (by decide) (by decide)]
  decide

/-- C3 counterexample: two workers over the empty sequence, worker 0
returning an init error and worker 1 panicking during init with payload 99,
supervisor returning `Ok(Continue)`.  The join loop reaches worker 0 first
and returns its error early; worker 1 is auto-joined by the scope and its
panic surfaces through `scope(..).unwrap()`, whose panic payload is a fresh
one — so the call panics, but not with the original payload 99, contradicting
the claim that a worker panic is always re-raised with its payload
unchanged. -/
theorem claim3_counterexample :
    (pfe mixedFailProg (BgRes.ok Continue.Continue : BgRes Nat Nat) 0 0 2
        [Event.worker 0, Event.worker 1, Event.bg]).finished = true
    ∧ pfeResult mixedFailProg (BgRes.ok Continue.Continue : BgRes Nat Nat) 0 0 2
        [Event.worker 0, Event.worker 1, Event.bg]
        = EngineResult.panic Payload.unwrapAggregate
    ∧ (Payload.unwrapAggregate : Payload Nat) ≠ Payload.user 99 :=
  ⟨by decide, by decide, by decide⟩

/-- C3 (amended): if any worker panics and the supervisor does not panic,
the finished call panics rather than returning an error value, and the
finished callback still fires exactly once before it unwinds.  The panic
payload is the worker's original payload when the supervisor returned
`Ok(..)` and the first non-`Ok` worker in spawn order is the panicking one;
and only then: when the supervisor returned an error, or when the first
non-`Ok` worker in spawn order returned an error (an earlier-spawn-order
worker error), the call panics with the fresh `scope(..).unwrap()` payload,
which differs from every original payload. -/
theorem claim3_panic_precedence {ι α σ sh εi εw εb π : Type}
    (P : Prog ι α σ sh εi εw π) (bg : BgRes εb π) (i0 : ι) (sh0 : sh)
    (n : Nat) (hn : 0 < n) (sched : List Event)
    (hfin : (pfe P bg i0 sh0 n sched).finished = true)
    (hp : (outcomes (pfe P bg i0 sh0 n sched)).any TaskOutcome.isPanic = true)
    (hbg : bg.isPanicB = false) :
    (∃ q, pfeResult P bg i0 sh0 n sched = EngineResult.panic q)
    ∧ (∀ e, pfeResult P bg i0 sh0 n sched ≠ EngineResult.err e)
    ∧ (pfe P bg i0 sh0 n sched).callbackCount = 1
    ∧ (∀ p : π, (Payload.unwrapAggregate : Payload π) ≠ Payload.user p)
    ∧ (∀ s p, bg = BgRes.ok s →
        firstNonOk (outcomes (pfe P bg i0 sh0 n sched))
          = some (TaskOutcome.panicked p) →
        pfeResult P bg i0 sh0 n sched = EngineResult.panic (Payload.user p))
    ∧ (∀ e, bg = BgRes.err e →
        pfeResult P bg i0 sh0 n sched
          = EngineResult.panic Payload.unwrapAggregate)
    ∧ (∀ s o, bg = BgRes.ok s →
        firstNonOk (outcomes (pfe P bg i0 sh0 n sched)) = some o →
        o.isPanic = false →
        pfeResult P bg i0 sh0 n sched
          = EngineResult.panic Payload.unwrapAggregate) := by
  have hinv := inv_pfe P bg i0 sh0 n hn sched
  have hex : ∃ q, pfeResult P bg i0 sh0 n sched = EngineResult.panic q := by
    unfold pfeResult finalResult
    cases bg with
    | ok s => exact joinWorkers_panic_exists _ hp
    | err e =>
      rw [hp]
      exact ⟨Payload.unwrapAggregate, rfl⟩
    | panic p => exact absurd hbg (by simp [BgRes.isPanicB])
  refine ⟨hex, ?_, ?_, ?_, ?_, ?_, ?_⟩
  · intro e heq
    rcases hex with ⟨q, hq⟩
    rw [heq] at hq
    exact EngineResult.noConfusion hq
  · exact inv_finished_callback bg _ _ hinv hfin
  · intro p hcon
    exact Payload.noConfusion hcon
  · intro s p hbgeq hfirst
    subst hbgeq
    unfold pfeResult finalResult
    exact joinWorkers_first_panicked _ p hfirst
  · intro e hbgeq
    subst hbgeq
    unfold pfeResult finalResult
    simp [hp]
  · intro s o hbgeq hfirst ho
    subst hbgeq
    unfold pfeResult finalResult
    exact joinWorkers_first_err_panic _ o hfirst ho hp

theorem claim3_witness :
    (pfe panicInitProg (BgRes.ok Continue.Continue : BgRes Nat Nat) 0 0 1
        [Event.worker 0, Event.bg]).callbackCount = 1
    ∧ pfeResult panicInitProg (BgRes.ok Continue.Continue : BgRes Nat Nat) 0 0 1
        [Event.worker 0, Event.bg] = EngineResult.panic (Payload.user 42)
    ∧ pfeResult mixedFailProg (BgRes.ok Continue.Continue : BgRes Nat Nat) 0 0 2
        [Event.worker 0, Event.worker 1, Event.bg]
        = EngineResult.panic Payload.unwrapAggregate
    ∧ pfeResult mixedFailProg (BgRes.err 3 : BgRes Nat Nat) 0 0 2
        [Event.worker 0, Event.worker 1, Event.bg]
        = EngineResult.panic Payload.unwrapAggregate := by
  have h := claim3_panic_precedence panicInitProg
    (BgRes.ok Continue.Continue : BgRes Nat Nat) 0 0 1 (by decide)
    [Event.worker 0, Event.bg] (by decide) (by decide) (by decide)
  have h2 := claim3_panic_precedence mixedFailProg
    (BgRes.ok Continue.Continue : BgRes Nat Nat) 0 0 2 (by decide)
    [Event.worker 0, Event.worker 1, Event.bg] (by decide) (by decide) (by decide)
  have h3 := claim3_panic_precedence mixedFailProg
    (BgRes.err 3 : BgRes Nat Nat) 0 0 2 (by decide)
    [Event.worker 0, Event.worker 1, Event.bg] (by decide) (by decide) (by decide)
  refine ⟨h.2.2.1, h.2.2.2.2.1 Continue.Continue 42 rfl (by decide), ?_, ?_⟩
  · exact h2.2.2.2.2.2.2 Continue.Continue (TaskOutcome.errInit 7) rfl
      (by decide) (by decide)
  · exact h3.2.2.2.2.2.1 3 rfl

/-- C4: for every `n` and every worker-count policy (any positive manual
count — in particular 1 through 128 — and `Auto` on any host with at least
one cpu), a finished run of the engine over `0..n` with the work function
adding each item into the shared accumulator returns `Ok(())` and leaves the
accumulator at `n * (n - 1) / 2`. -/
theorem claim4_sum_correct (n : Nat) (wc : WorkerCount) (cpus : Nat)
    (hn : 0 < resolveWorkerCount wc cpus) (sched : List Event)
    (hfin : (pfe (sumProg n) (BgRes.ok Continue.Continue : BgRes Unit Unit)
      0 0 (resolveWorkerCount wc cpus) sched).finished = true) :
    pfeResult (sumProg n) (BgRes.ok Continue.Continue : BgRes Unit Unit) 0 0
        (resolveWorkerCount wc cpus) sched = EngineResult.ok
    ∧ (pfe (sumProg n) (BgRes.ok Continue.Continue : BgRes Unit Unit) 0 0
        (resolveWorkerCount wc cpus) sched).shared = n * (n - 1) / 2 :=
  sumProg_final n (resolveWorkerCount wc cpus) hn sched hfin

theorem claim4_witness :
    pfeResult (sumProg 3) (BgRes.ok Continue.Continue : BgRes Unit Unit) 0 0
        (resolveWorkerCount (WorkerCount.Manual 2) 1)
        [Event.worker 0, Event.worker 1, Event.worker 0, Event.worker 1,
          Event.worker 0, Event.worker 1, Event.worker 0, Event.worker 0,
          Event.worker 0, Event.worker 1, Event.bg] = EngineResult.ok
    ∧ (pfe (sumProg 3) (BgRes.ok Continue.Continue : BgRes Unit Unit) 0 0
        (resolveWorkerCount (WorkerCount.Manual 2) 1)
        [Event.worker 0, Event.worker 1, Event.worker 0, Event.worker 1,
          Event.worker 0, Event.worker 1, Event.worker 0, Event.worker 0,
          Event.worker 0, Event.worker 1, Event.bg]).shared = 3 * (3 - 1) / 2 :=
  claim4_sum_correct 3 (WorkerCount.Manual 2) 1 (by decide)
    [Event.worker 0, Event.worker 1, Event.worker 0, Event.worker 1,
      Event.worker 0, Event.worker 1, Event.worker 0, Event.worker 0,
      Event.worker 0, Event.worker 1, Event.bg] (by decide)

/-- C5: `State::next` clears the source in the same locked call that observes
exhaustion (whenever a pull yields nothing, the cursor afterwards holds
nothing), and consequently a finished run over the misbehaving
`UglyIterator(n+1)` — which yields `n` ones, reports exhaustion once, and
would yield again if polled past exhaustion — sums exactly `n`, with the
underlying iterator polled at most `n + 1` times in total, for every
worker-count policy. -/
theorem claim5_broken_sequence (n : Nat) (wc : WorkerCount) (cpus : Nat)
    (hn : 0 < resolveWorkerCount wc cpus) (sched : List Event)
    (hfin : (pfe uglyProg (BgRes.ok Continue.Continue : BgRes Unit Unit)
      (n + 1) 0 (resolveWorkerCount wc cpus) sched).finished = true) :
    (∀ (f : Nat → Option Nat × Nat) (cur : Option Nat),
      (stateNext f cur).1 = none → (stateNext f cur).2 = none)
    ∧ (pfe uglyProg (BgRes.ok Continue.Continue : BgRes Unit Unit)
        (n + 1) 0 (resolveWorkerCount wc cpus) sched).shared = n
    ∧ (pfe uglyProg (BgRes.ok Continue.Continue : BgRes Unit Unit)
        (n + 1) 0 (resolveWorkerCount wc cpus) sched).pollCount ≤ n + 1 := by
  have h := uglyProg_final n (resolveWorkerCount wc cpus) hn sched hfin
  refine ⟨?_, h.1, h.2⟩
  intro f cur hnone
  cases cur with
  | none => rfl
  | some it =>
    simp only [stateNext]
    cases hit : f it with
    | mk oa it' =>
      cases oa with
      | none => rfl
      | some a =>
        simp only [stateNext, hit] at hnone
        exact absurd hnone (by simp)

theorem claim5_witness :
    (pfe uglyProg (BgRes.ok Continue.Continue : BgRes Unit Unit) (2 + 1) 0
        (resolveWorkerCount (WorkerCount.Manual 1) 1)
        [Event.worker 0, Event.worker 0, Event.worker 0, Event.worker 0,
          Event.worker 0, Event.worker 0, Event.bg]).shared = 2
    ∧ (pfe uglyProg (BgRes.ok Continue.Continue : BgRes Unit Unit) (2 + 1) 0
        (resolveWorkerCount (WorkerCount.Manual 1) 1)
        [Event.worker 0, Event.worker 0, Event.worker 0, Event.worker 0,
          Event.worker 0, Event.worker 0, Event.bg]).pollCount ≤ 2 + 1 := by
  have h := claim5_broken_sequence 2 (WorkerCount.Manual 1) 1 (by decide)
    [Event.worker 0, Event.worker 0, Event.worker 0, Event.worker 0,
      Event.worker 0, Event.worker 0, Event.bg] (by decide)
  exact ⟨h.2.1, h.2.2⟩

/-- C6: when the supervisor returns `Ok(Stop)` and init and work never fail
(over any input sequence, including an infinite one), a finished run of the
engine returns `Ok(())` (`Stop` is not a failure), the finished callback has
run exactly once, and from the moment the background step has run the cursor
is stopped, so no further item is ever delivered to any work function. -/
theorem claim6_supervisor_stop {ι α σ sh εi εw εb π : Type}
    (P : Prog ι α σ sh εi εw π) (i0 : ι) (sh0 : sh) (n : Nat) (hn : 0 < n)
    (hinit : ∀ i, ∃ s, P.initf i = TaskRes.ok s)
    (hwork : ∀ s a acc, ∃ r, P.workf s a acc = TaskRes.ok r)
    (sched : List Event) :
    ((pfe P (BgRes.ok Continue.Stop : BgRes εb π) i0 sh0 n sched).finished = true →
      pfeResult P (BgRes.ok Continue.Stop : BgRes εb π) i0 sh0 n sched
          = EngineResult.ok
      ∧ (pfe P (BgRes.ok Continue.Stop : BgRes εb π) i0 sh0 n sched).callbackCount = 1)
    ∧ (∀ sched1 extra : List Event,
        (run P (BgRes.ok Continue.Stop : BgRes εb π) (initConfig i0 sh0 n)
          sched1).bgDone = true →
        (run P (BgRes.ok Continue.Stop : BgRes εb π) (initConfig i0 sh0 n)
            (sched1 ++ extra)).deliveredLog
          = (run P (BgRes.ok Continue.Stop : BgRes εb π) (initConfig i0 sh0 n)
              sched1).deliveredLog) := by
  constructor
  · intro hfin
    have hinv := inv_pfe P (BgRes.ok Continue.Stop : BgRes εb π) i0 sh0 n hn sched
    have hok := okOut_run P (BgRes.ok Continue.Stop : BgRes εb π)
      (initConfig i0 sh0 n) sched hinit hwork (okOut_initConfig i0 sh0 n)
    constructor
    · unfold pfeResult
      exact joinWorkers_all_ok _ (outcomes_ok _ hok)
    · exact inv_finished_callback _ _ _ hinv hfin
  · intro sched1 extra hdone
    have hinv := inv_run P (BgRes.ok Continue.Stop : BgRes εb π) n
      (initConfig i0 sh0 n) sched1 (inv_initConfig _ i0 sh0 n hn)
    have hcur : (run P (BgRes.ok Continue.Stop : BgRes εb π) (initConfig i0 sh0 n)
        sched1).cursor = none :=
      hinv.hbg (by simp) hdone
    rw [run_append]
    exact run_deliveredLog_none P _ _ extra hcur

theorem claim6_witness :
    (pfe streamProg (BgRes.ok Continue.Stop : BgRes Unit Unit) 0 0 1
        [Event.bg, Event.worker 0, Event.worker 0]).finished = true
    ∧ pfeResult streamProg (BgRes.ok Continue.Stop : BgRes Unit Unit) 0 0 1
        [Event.bg, Event.worker 0, Event.worker 0] = EngineResult.ok
    ∧ (run streamProg (BgRes.ok Continue.Stop : BgRes Unit Unit) (initConfig 0 0 1)
        ([Event.bg] ++ [Event.worker 0])).deliveredLog
      = (run streamProg (BgRes.ok Continue.Stop : BgRes Unit Unit) (initConfig 0 0 1)
          [Event.bg]).deliveredLog := by
  have h := @claim6_supervisor_stop Nat Nat Unit Nat Unit Unit Unit Unit
    streamProg 0 0 1 (by decide)
    (fun i => ⟨(), rfl⟩) (fun s a acc => ⟨((), acc + a), rfl⟩)
    [Event.bg, Event.worker 0, Event.worker 0]
  exact ⟨by decide, (h.1 (by decide)).1, h.2 [Event.bg] [Event.worker 0] (by decide)⟩

/-- C7: `State::stop` is idempotent, a stopped cursor yields nothing and
stays stopped without consulting the iterator, and no operation of the
engine ever restores a cleared cursor: from any configuration with a cleared
cursor, any schedule of worker and background events leaves it cleared. -/
theorem claim7_stop_monotone {ι α σ sh εi εw εb π : Type}
    (P : Prog ι α σ sh εi εw π) (bg : BgRes εb π)
    (c : Config ι α σ sh εi εw π) (evs : List Event) (x : Option ι)
    (h : c.cursor = none) :
    stateStop (stateStop x) = stateStop x
    ∧ stateNext P.iterNext (stateStop x) = (none, stateStop x)
    ∧ (run P bg c evs).cursor = none :=
  ⟨rfl, rfl, run_cursor_none P bg c evs h⟩

theorem claim7_witness :
    (run (sumProg 1) (BgRes.ok Continue.Stop : BgRes Unit Unit)
        (bgStep (BgRes.ok Continue.Stop : BgRes Unit Unit) (initConfig 0 0 1))
        [Event.worker 0, Event.worker 0]).cursor = none :=
  (claim7_stop_monotone (sumProg 1) (BgRes.ok Continue.Stop : BgRes Unit Unit)
    (bgStep (BgRes.ok Continue.Stop : BgRes Unit Unit) (initConfig 0 0 1))
    [Event.worker 0, Event.worker 0] none (by decide)).2.2

/-- C8: refinement between the two summing variants: for every `n` and every
pair of worker-count policies and finished schedules, the run whose work
function accumulates into the worker's private local state, folded into the
shared total only by the local state's destructor at worker cleanup,
produces exactly the same final total as the run that adds every item
directly into the shared accumulator (both equal `n * (n - 1) / 2`). -/
theorem claim8_local_state_refinement (n : Nat) (wc1 wc2 : WorkerCount)
    (cpus1 cpus2 : Nat) (hn1 : 0 < resolveWorkerCount wc1 cpus1)
    (hn2 : 0 < resolveWorkerCount wc2 cpus2) (sched1 sched2 : List Event)
    (hfin1 : (pfe (sumStateProg n) (BgRes.ok Continue.Continue : BgRes Unit Unit)
      0 0 (resolveWorkerCount wc1 cpus1) sched1).finished = true)
    (hfin2 : (pfe (sumProg n) (BgRes.ok Continue.Continue : BgRes Unit Unit)
      0 0 (resolveWorkerCount wc2 cpus2) sched2).finished = true) :
    (pfe (sumStateProg n) (BgRes.ok Continue.Continue : BgRes Unit Unit)
        0 0 (resolveWorkerCount wc1 cpus1) sched1).shared
      = (pfe (sumProg n) (BgRes.ok Continue.Continue : BgRes Unit Unit)
          0 0 (resolveWorkerCount wc2 cpus2) sched2).shared := by
  rw [(sumStateProg_final n (resolveWorkerCount wc1 cpus1) hn1 sched1 hfin1).2,
    (sumProg_final n (resolveWorkerCount wc2 cpus2) hn2 sched2 hfin2).2]

theorem claim8_witness :
    (pfe (sumStateProg 2) (BgRes.ok Continue.Continue : BgRes Unit Unit) 0 0
        (resolveWorkerCount (WorkerCount.Manual 1) 1)
        [Event.worker 0, Event.worker 0, Event.worker 0, Event.worker 0,
          Event.worker 0, Event.worker 0, Event.bg]).shared
      = (pfe (sumProg 2) (BgRes.ok Continue.Continue : BgRes Unit Unit) 0 0
          (resolveWorkerCount (WorkerCount.Manual 1) 1)
          [Event.worker 0, Event.worker 0, Event.worker 0, Event.worker 0,
            Event.worker 0, Event.worker 0, Event.bg]).shared :=
  claim8_local_state_refinement 2 (WorkerCount.Manual 1) (WorkerCount.Manual 1) 1 1
    (by decide) (by decide)
    [Event.worker 0, Event.worker 0, Event.worker 0, Event.worker 0,
      Event.worker 0, Event.worker 0, Event.bg]
    [Event.worker 0, Event.worker 0, Event.worker 0, Event.worker 0,
      Event.worker 0, Event.worker 0, Event.bg]
    (by decide) (by decide)

/-- C9: when the supervisor returns `Err(e)` and no worker panicked, the
finished call stops the cursor at the background step and returns
`BackgroundTaskError` wrapping `e` — the join results of the workers are not
consulted, so this holds even when workers returned `InitTaskError` or
`WorkerTaskError`, regardless of spawn order. -/
theorem claim9_background_error_priority {ι α σ sh εi εw εb π : Type}
    (P : Prog ι α σ sh εi εw π) (e : εb) (i0 : ι) (sh0 : sh)
    (n : Nat) (hn : 0 < n) (sched : List Event)
    (hfin : (pfe P (BgRes.err e : BgRes εb π) i0 sh0 n sched).finished = true)
    (hnp : (outcomes (pfe P (BgRes.err e : BgRes εb π) i0 sh0 n sched)).any
      TaskOutcome.isPanic = false) :
    pfeResult P (BgRes.err e : BgRes εb π) i0 sh0 n sched
        = EngineResult.err (PFEError.backgroundTaskError e)
    ∧ ((pfe P (BgRes.err e : BgRes εb π) i0 sh0 n sched).bgDone = true →
        (pfe P (BgRes.err e : BgRes εb π) i0 sh0 n sched).cursor = none) := by
  have hinv := inv_pfe P (BgRes.err e : BgRes εb π) i0 sh0 n hn sched
  constructor
  · unfold pfeResult finalResult
    rw [hnp]
    rfl
  · exact hinv.hbg (by simp)

theorem claim9_witness :
    pfeResult initFailProg (BgRes.err 3 : BgRes Nat Nat) 0 0 2
        [Event.worker 0, Event.worker 1, Event.worker 0, Event.bg]
      = EngineResult.err (PFEError.backgroundTaskError 3)
    ∧ (pfe initFailProg (BgRes.err 3 : BgRes Nat Nat) 0 0 2
        [Event.worker 0, Event.worker 1, Event.worker 0, Event.bg]).cursor = none := by
  have h := claim9_background_error_priority initFailProg 3 0 0 2 (by decide)
    [Event.worker 0, Event.worker 1, Event.worker 0, Event.bg] (by decide) (by decide)
  exact ⟨h.1, h.2 (by decide)⟩

/-- C10: in a finished run with resolved worker count `n`, `init_fun` was
called exactly once for every worker id `0, .., n - 1` and for no other id;
moreover, temporally: after every schedule whatsoever — in particular after
every prefix of any run — every worker id that has performed a `next()` call
is already in the init log (so each worker's init call precedes that
worker's first pull), and no id has been logged by init more than once.
This holds for every program, in particular when the input sequence is
empty. -/
theorem claim10_init_exactly_once {ι α σ sh εi εw εb π : Type}
    (P : Prog ι α σ sh εi εw π) (bg : BgRes εb π) (i0 : ι) (sh0 : sh)
    (n : Nat) (hn : 0 < n) (sched : List Event)
    (hfin : (pfe P bg i0 sh0 n sched).finished = true) :
    (∀ i, i < n → (pfe P bg i0 sh0 n sched).initLog.count i = 1)
    ∧ (∀ i, n ≤ i → (pfe P bg i0 sh0 n sched).initLog.count i = 0)
    ∧ (∀ sched' : List Event, ∀ i, i ∈ (pfe P bg i0 sh0 n sched').pullLog →
        i ∈ (pfe P bg i0 sh0 n sched').initLog)
    ∧ (∀ sched' : List Event, ∀ i,
        (pfe P bg i0 sh0 n sched').initLog.count i ≤ 1) := by
  have hii : InitInv n (pfe P bg i0 sh0 n sched) :=
    initInv_run P bg n (initConfig i0 sh0 n) sched (initInv_initConfig i0 sh0 n)
  have hiis : ∀ sched' : List Event, InitInv n (pfe P bg i0 sh0 n sched') :=
    fun sched' =>
      initInv_run P bg n (initConfig i0 sh0 n) sched' (initInv_initConfig i0 sh0 n)
  refine ⟨?_, ?_, fun sched' => (hiis sched').hpull, ?_⟩
  · intro i hi
    rw [hii.hcount i hi]
    have hlt : i < (pfe P bg i0 sh0 n sched).workers.length := by
      rw [hii.hlen]
      exact hi
    have hgw := List.getElem?_eq_getElem hlt
    have hterm := (List.all_eq_true.mp ((Bool.and_eq_true _ _).mp hfin).2)
      ((pfe P bg i0 sh0 n sched).workers[i]) (List.getElem_mem hlt)
    rw [hgw]
    cases hgwv : (pfe P bg i0 sh0 n sched).workers[i] with
    | toInit => rw [hgwv] at hterm; exact absurd hterm (by simp [WStatus.isTerm])
    | pulling s => rfl
    | working s a => rfl
    | terminated o => rfl
  · intro i hi
    apply List.count_eq_zero.mpr
    intro hmem
    have := hii.hrange i hmem
    omega
  · intro sched' i
    by_cases hi : i < n
    · rw [(hiis sched').hcount i hi]
      split <;> omega
    · have : (pfe P bg i0 sh0 n sched').initLog.count i = 0 := by
        apply List.count_eq_zero.mpr
        intro hmem
        have := (hiis sched').hrange i hmem
        omega
      omega

theorem claim10_witness :
    (pfe (sumProg 0) (BgRes.ok Continue.Continue : BgRes Unit Unit) 0 0 2
        [Event.worker 0, Event.worker 1, Event.worker 0, Event.worker 1,
          Event.bg]).initLog.count 0 = 1
    ∧ (pfe (sumProg 0) (BgRes.ok Continue.Continue : BgRes Unit Unit) 0 0 2
        [Event.worker 0, Event.worker 1, Event.worker 0, Event.worker 1,
          Event.bg]).initLog.count 1 = 1
    ∧ (pfe (sumProg 0) (BgRes.ok Continue.Continue : BgRes Unit Unit) 0 0 2
        [Event.worker 0, Event.worker 1, Event.worker 0, Event.worker 1,
          Event.bg]).initLog.count 5 = 0
    ∧ 0 ∈ (pfe (sumProg 0) (BgRes.ok Continue.Continue : BgRes Unit Unit) 0 0 2
        [Event.worker 0, Event.worker 1, Event.worker 0]).initLog
    ∧ (pfe (sumProg 0) (BgRes.ok Continue.Continue : BgRes Unit Unit) 0 0 2
        [Event.worker 0]).initLog.count 0 ≤ 1 := by
  have h := claim10_init_exactly_once (sumProg 0)
    (BgRes.ok Continue.Continue : BgRes Unit Unit) 0 0 2 (by decide)
    [Event.worker 0, Event.worker 1, Event.worker 0, Event.worker 1, Event.bg]
    (by decide)
  exact ⟨h.1 0 (by decide), h.1 1 (by decide), h.2.1 5 (by decide),
    h.2.2.1 [Event.worker 0, Event.worker 1, Event.worker 0] 0 (by decide),
    h.2.2.2 [Event.worker 0] 0⟩

end ParallelForEach
